import Mathlib

/-
Shallow embedding of the ray-tracer core (tuple algebra, matrix engine,
ray/sphere intersection, lighting, world, camera) from the Rust sources
src/tuple.rs, src/color.rs, src/matrices.rs, src/shapes.rs, src/rays.rs,
src/lights.rs, src/world.rs, src/camera.rs.

Modelling conventions:
  - f64 values are modelled as real numbers (exact arithmetic; IEEE rounding
    is abstracted away, which is the usual reading of the spec's epsilon
    comparisons).
  - A fixed-size Rust matrix [[f64; C]; R] is modelled as a total function
    Nat -> Nat -> Real together with the intended bounds passed explicitly,
    mirroring the const generics R, C.  All engine functions read only
    indices below the stated bounds; entries outside the bounds are
    irrelevant junk (builders set them to 0).
  - Rust panics (unwrap on None, index out of bounds) are modelled by the
    Res monad below: Res.panics is an unrecoverable stop, Res.ok a normal
    return.  A recoverable Rust Option stays an Option inside Res.
-/

namespace RayTracer

noncomputable section

open scoped Classical

/-- Result of a Rust computation that may panic: either a fatal panic or a
normally returned value. -/
inductive Res (α : Type) where
  | panics : Res α
  | ok : α → Res α
deriving DecidableEq

/-- Tuple models the 4-component homogeneous coordinate from src/tuple.rs. -/
structure Tuple where
  x : ℝ
  y : ℝ
  z : ℝ
  w : ℝ

namespace Tuple

/-- Tuple.point from src/tuple.rs: a point has w = 1. -/
def point (x y z : ℝ) : Tuple := ⟨x, y, z, 1⟩

/-- Tuple.vector from src/tuple.rs: a vector has w = 0. -/
def vector (x y z : ℝ) : Tuple := ⟨x, y, z, 0⟩

/-- Tuple.magnitude from src/tuple.rs: sqrt of the sum of the squares of the
x, y and z components (w is not included). -/
def magnitude (t : Tuple) : ℝ := Real.sqrt (t.x ^ 2 + t.y ^ 2 + t.z ^ 2)

/-- Tuple.normalize from src/tuple.rs: divides x, y, z by the magnitude and
sets w to 0. -/
def normalize (t : Tuple) : Tuple :=
  ⟨t.x / t.magnitude, t.y / t.magnitude, t.z / t.magnitude, 0⟩

/-- Componentwise addition (impl Add for Tuple). -/
def add (a b : Tuple) : Tuple := ⟨a.x + b.x, a.y + b.y, a.z + b.z, a.w + b.w⟩

/-- Componentwise subtraction (impl Sub for Tuple). -/
def sub (a b : Tuple) : Tuple := ⟨a.x - b.x, a.y - b.y, a.z - b.z, a.w - b.w⟩

/-- Componentwise negation (impl Neg for Tuple). -/
def neg (a : Tuple) : Tuple := ⟨-a.x, -a.y, -a.z, -a.w⟩

/-- Scalar multiplication (impl Mul of f64 for Tuple). -/
def smul (a : Tuple) (s : ℝ) : Tuple := ⟨a.x * s, a.y * s, a.z * s, a.w * s⟩

end Tuple

/-- dot from src/tuple.rs: 4-component dot product (w included). -/
def dot (a b : Tuple) : ℝ := a.x * b.x + a.y * b.y + a.z * b.z + a.w * b.w

/-- cross from src/tuple.rs: 3-component cross product, returns a vector. -/
def cross (a b : Tuple) : Tuple :=
  Tuple.vector (a.y * b.z - a.z * b.y) (a.z * b.x - a.x * b.z)
    (a.x * b.y - a.y * b.x)

/-- reflect from src/tuple.rs: vector - normal * 2 * dot(vector, normal). -/
def reflect (v n : Tuple) : Tuple :=
  v.sub ((n.smul 2).smul (dot v n))

/-- Color from src/color.rs. -/
structure Color where
  red : ℝ
  green : ℝ
  blue : ℝ

namespace Color

/-- Color.color constructor from src/color.rs. -/
def color (r g b : ℝ) : Color := ⟨r, g, b⟩

/-- Componentwise addition (impl Add for Color). -/
def add (a b : Color) : Color := ⟨a.red + b.red, a.green + b.green, a.blue + b.blue⟩

/-- Scalar multiplication (impl Mul of f64 for Color). -/
def smul (a : Color) (s : ℝ) : Color := ⟨a.red * s, a.green * s, a.blue * s⟩

/-- Hadamard product (impl Mul of Color for Color). -/
def hadamard (a b : Color) : Color :=
  ⟨a.red * b.red, a.green * b.green, a.blue * b.blue⟩

end Color

/-- Mat models the data array of Matrix from src/matrices.rs: entries are
addressed by row and column; the intended dimensions R, C are passed to each
operation explicitly, mirroring the const generic parameters. -/
def Mat : Type := Nat → Nat → ℝ

/-- Matrix.new from src/matrices.rs: the all-zero matrix. -/
def matNew : Mat := fun _ _ => 0

/-- Helper building a 4x4 matrix from 16 entries, row major; entries outside
the 4x4 range are 0, matching the fixed-size [[f64; 4]; 4] array of
Matrix.new_init in src/matrices.rs. -/
def mat4 (a00 a01 a02 a03 a10 a11 a12 a13 a20 a21 a22 a23 a30 a31 a32 a33 : ℝ) :
    Mat := fun i j =>
  if i = 0 then
    if j = 0 then a00 else if j = 1 then a01 else if j = 2 then a02
    else if j = 3 then a03 else 0
  else if i = 1 then
    if j = 0 then a10 else if j = 1 then a11 else if j = 2 then a12
    else if j = 3 then a13 else 0
  else if i = 2 then
    if j = 0 then a20 else if j = 1 then a21 else if j = 2 then a22
    else if j = 3 then a23 else 0
  else if i = 3 then
    if j = 0 then a30 else if j = 1 then a31 else if j = 2 then a32
    else if j = 3 then a33 else 0
  else 0

/-- Matrix.new_identity from src/matrices.rs for size R: zero matrix with
ones placed on the diagonal for indices below R. -/
def identityM (R : Nat) : Mat := fun i j => if i = j ∧ i < R then 1 else 0

/-- Matrix.transpose from src/matrices.rs: swaps rows and columns (the Rust
loop swaps all entries below the bound R; on the in-range square this is the
usual transpose). -/
def transposeM (m : Mat) : Mat := fun i j => m j i

/-- Matrix multiplication from src/matrices.rs (impl Mul): entry (i, j) is
the sum over k below C of A[i][k] * B[k][j]. -/
def matMul (C : Nat) (a b : Mat) : Mat :=
  fun i j => ∑ k ∈ Finset.range C, a i k * b k j

/-- Matrix.translation from src/matrices.rs. -/
def translationM (x y z : ℝ) : Mat :=
  mat4 1 0 0 x 0 1 0 y 0 0 1 z 0 0 0 1

/-- Matrix.scaling from src/matrices.rs. -/
def scalingM (x y z : ℝ) : Mat :=
  mat4 x 0 0 0 0 y 0 0 0 0 z 0 0 0 0 1

/-- Deletion of one row and one column, the loop body of Submatrix::submatrix
in src/matrices.rs: the loop copies the remaining entries to consecutive
output indices, so entry (i, j) of the output is entry (i or i+1, j or j+1)
of the input depending on whether the index is below the deleted row or
column. -/
def subShift (m : Mat) (row col : Nat) : Mat := fun i j =>
  m (if i < row then i else i + 1) (if j < col then j else j + 1)

/-- Submatrix::submatrix from src/matrices.rs: fails when the row or column
to delete is out of range or the requested output dimensions are not exactly
(R-1, C-1); otherwise deletes the given row and column. -/
def submatrixM (R C P Q : Nat) (m : Mat) (row col : Nat) : Option Mat :=
  if row ≥ R ∨ col ≥ C ∨ R - 1 ≠ P ∨ C - 1 ≠ Q then none
  else some (subShift m row col)

/-- Determinant of a 2x2 matrix, the base case of Matrix.det in
src/matrices.rs: a d - b c. -/
def det2 (m : Mat) : ℝ := m 0 0 * m 1 1 - m 0 1 * m 1 0

/-
Matrix.minor, Matrix.cofactor and Matrix.det in src/matrices.rs recurse
through each other with strictly shrinking const-generic size (4 -> 3 -> 2).
As rustc monomorphizes each instantiated size into its own function, the
embedding spells out the size-3 and size-4 instances (minor3, cofactor3,
detSum3, det3, minor4, ...) and then defines the generic functions by the
same size dispatch the Rust source performs.
-/

/-- Matrix.minor instantiated at size 3: take the 2x2 submatrix (unwrap
panics when submatrix fails) and return its determinant (the 2x2 base case
of det). -/
def minor3 (m : Mat) (row col : Nat) : Res (Option ℝ) :=
  match submatrixM 3 3 2 2 m row col with
  | none => Res.panics
  | some s => Res.ok (some (det2 s))

/-- Matrix.cofactor instantiated at size 3: the minor (unwrap panics when it
is None) with the sign flipped when row + col is odd. -/
def cofactor3 (m : Mat) (row col : Nat) : Res (Option ℝ) :=
  match minor3 m row col with
  | Res.ok (some v) => Res.ok (some (if (row + col) % 2 ≠ 0 then -v else v))
  | _ => Res.panics

/-- Partial sums of the cofactor expansion along row 0 for size 3 (the loop
body of Matrix.det): sum over columns below n of m[0][col] * cofactor(0, col),
panicking (unwrap) when a cofactor is not available. -/
def detSum3 (m : Mat) : Nat → Res ℝ
  | 0 => Res.ok 0
  | n + 1 =>
    match detSum3 m n, cofactor3 m 0 n with
    | Res.ok d, Res.ok (some c) => Res.ok (d + m 0 n * c)
    | _, _ => Res.panics

/-- Matrix.det instantiated at size 3: cofactor expansion along row 0. -/
def det3 (m : Mat) : Res (Option ℝ) :=
  match detSum3 m 3 with
  | Res.ok d => Res.ok (some d)
  | Res.panics => Res.panics

/-- Matrix.minor instantiated at size 4: take the 3x3 submatrix (unwrap
panics when submatrix fails) and return its determinant. -/
def minor4 (m : Mat) (row col : Nat) : Res (Option ℝ) :=
  match submatrixM 4 4 3 3 m row col with
  | none => Res.panics
  | some s => det3 s

/-- Matrix.cofactor instantiated at size 4. -/
def cofactor4 (m : Mat) (row col : Nat) : Res (Option ℝ) :=
  match minor4 m row col with
  | Res.ok (some v) => Res.ok (some (if (row + col) % 2 ≠ 0 then -v else v))
  | _ => Res.panics

/-- Partial sums of the cofactor expansion along row 0 for size 4. -/
def detSum4 (m : Mat) : Nat → Res ℝ
  | 0 => Res.ok 0
  | n + 1 =>
    match detSum4 m n, cofactor4 m 0 n with
    | Res.ok d, Res.ok (some c) => Res.ok (d + m 0 n * c)
    | _, _ => Res.panics

/-- Matrix.det instantiated at size 4: cofactor expansion along row 0. -/
def det4 (m : Mat) : Res (Option ℝ) :=
  match detSum4 m 4 with
  | Res.ok d => Res.ok (some d)
  | Res.panics => Res.panics

/-- Matrix.minor from src/matrices.rs, generic in the size R: dispatches on
R exactly as the Rust match does.  For size 2 the code returns self.det(),
whose 2x2 base case is det2 and never fails. -/
def minorM (R : Nat) (m : Mat) (row col : Nat) : Res (Option ℝ) :=
  if R = 2 then Res.ok (some (det2 m))
  else if R = 3 then minor3 m row col
  else if R = 4 then minor4 m row col
  else Res.ok none

/-- Matrix.cofactor from src/matrices.rs, generic in the size R: None for
sizes above 4; otherwise the minor (unwrap panics when the minor is None)
with the sign flipped when row + col is odd. -/
def cofactorM (R : Nat) (m : Mat) (row col : Nat) : Res (Option ℝ) :=
  if 4 < R then Res.ok none
  else
    match minorM R m row col with
    | Res.ok (some v) => Res.ok (some (if (row + col) % 2 ≠ 0 then -v else v))
    | _ => Res.panics

/-- Matrix.det from src/matrices.rs, generic in the size R: the 2x2 base
case, cofactor expansion along row 0 for sizes 3 and 4, and None for any
other size. -/
def detM (R : Nat) (m : Mat) : Res (Option ℝ) :=
  if R = 2 then Res.ok (some (det2 m))
  else if R = 3 then det3 m
  else if R = 4 then det4 m
  else Res.ok none

/-- Helper: whether a Res (Option) value is a normally returned Some. -/
def isOkSome : Res (Option ℝ) → Bool
  | Res.ok (some _) => true
  | _ => false

/-- Helper: the value inside a normally returned Some (0 otherwise; only read
where ok-someness has been established). -/
def resVal (r : Res (Option ℝ)) : ℝ :=
  match r with
  | Res.ok (some v) => v
  | _ => 0

/-- Matrix.invert from src/matrices.rs: None for sizes above 4; then the
determinant is unwrapped (panicking when det is None, which happens for
sizes 0 and 1); a zero determinant gives None; otherwise the double loop
unwraps every cofactor below R (panicking when any is None) and fills entry
[col][row] with cofactor(row, col) / det. -/
def invertM (R : Nat) (m : Mat) : Res (Option Mat) :=
  if 4 < R then Res.ok none
  else
    match detM R m with
    | Res.ok (some d) =>
      if d = 0 then Res.ok none
      else if (List.range R).all (fun row =>
          (List.range R).all (fun col => isOkSome (cofactorM R m row col))) then
        Res.ok (some (fun i j => resVal (cofactorM R m j i) / d))
      else Res.panics
    | _ => Res.panics

/-- Matrix to_matrix from src/matrices.rs: a Tuple as a 4x1 column matrix. -/
def to_matrix (t : Tuple) : Mat := fun i j =>
  if j = 0 then
    if i = 0 then t.x else if i = 1 then t.y else if i = 2 then t.z
    else if i = 3 then t.w else 0
  else 0

/-- Modelled from the spec: to_tuple, imported by src/rays.rs, src/shapes.rs
and src/camera.rs from the matrices module but not present in the provided
src/matrices.rs, converts a 4x1 column matrix back to the Tuple whose x, y,
z, w are its four rows (the inverse of to_matrix, forced by its uses). -/
def to_tuple (m : Mat) : Tuple := ⟨m 0 0, m 1 0, m 2 0, m 3 0⟩

/-- Material from src/shapes.rs. -/
structure Material where
  color : Color
  ambient : ℝ
  diffuse : ℝ
  specular : ℝ
  shininess : ℝ

/-- Material.new from src/shapes.rs: white, 0.1, 0.9, 0.9, 200. -/
def Material.new : Material := ⟨Color.color 1 1 1, 0.1, 0.9, 0.9, 200⟩

/-- Sphere from src/shapes.rs: unit sphere data with a transformation and a
material. -/
structure Sphere where
  pos : Tuple
  radius : ℝ
  transformation : Mat
  material : Material

/-- Sphere.new_unit_sphere from src/shapes.rs (called Sphere::new at its use
sites in src/world.rs and src/rays.rs): identity transformation and default
material. -/
def Sphere.new_unit_sphere : Sphere :=
  ⟨Tuple.point 0 0 0, 1, identityM 4, Material.new⟩

/-- PointLight from src/lights.rs. -/
structure PointLight where
  position : Tuple
  intensity : Color

/-- PointLight.new from src/lights.rs. -/
def PointLight.new (position : Tuple) (intensity : Color) : PointLight :=
  ⟨position, intensity⟩

/-- Normal::normal_at for Sphere from src/shapes.rs: unwrap the inverse of
the transformation (panic when the matrix is singular), map the point to
object space, subtract the object-space origin point, map back with the
transposed inverse, and normalize. -/
def normal_at (s : Sphere) (point : Tuple) : Res Tuple :=
  match invertM 4 s.transformation with
  | Res.ok (some ti) =>
    let object_point := matMul 4 ti (to_matrix point)
    let object_normal := (to_tuple object_point).sub (Tuple.point 0 0 0)
    let world_normal :=
      to_tuple (matMul 4 (transposeM ti) (to_matrix object_normal))
    Res.ok world_normal.normalize
  | _ => Res.panics

/-- Ray from src/rays.rs. -/
structure Ray where
  origin : Tuple
  direction : Tuple

/-- Intersection from src/rays.rs: a parameter t and the intersected sphere
(a reference in Rust, a value here). -/
structure Intersection where
  t : ℝ
  object : Sphere

/-- Computation from src/rays.rs. -/
structure Computation where
  t : ℝ
  object : Sphere
  point : Tuple
  eyev : Tuple
  normalv : Tuple
  inside : Bool

/-- Loop body of hit from src/rays.rs: keep the current candidate unless the
next intersection has non-negative t and either no candidate exists yet or
its t is strictly smaller. -/
def hitStep (acc : Option Intersection) (i : Intersection) : Option Intersection :=
  if 0 ≤ i.t then
    match acc with
    | none => some i
    | some mi => if i.t < mi.t then some i else acc
  else acc

/-- hit from src/rays.rs: None for an empty list, otherwise the left fold of
hitStep starting from no candidate. -/
def hit (l : List Intersection) : Option Intersection :=
  if l.isEmpty then none else l.foldl hitStep none

namespace Ray

/-- Ray.position from src/rays.rs: origin + direction * t. -/
def position (r : Ray) (t : ℝ) : Tuple := r.origin.add (r.direction.smul t)

/-- Ray.transform from src/rays.rs: multiply origin and direction (as 4x1
column matrices) by the transformation. -/
def transform (r : Ray) (transformation : Mat) : Ray :=
  ⟨to_tuple (matMul 4 transformation (to_matrix r.origin)),
   to_tuple (matMul 4 transformation (to_matrix r.direction))⟩

/-- Ray.intersects from src/rays.rs: transform the ray by the unwrapped
inverse of the sphere's transformation (panic when singular), solve the
unit-sphere quadratic, and emit zero or two intersections tagged with the
sphere. -/
def intersects (r : Ray) (s : Sphere) : Res (List Intersection) :=
  match invertM 4 s.transformation with
  | Res.ok (some ti) =>
    let ray := r.transform ti
    let sphere_to_ray := ray.origin.sub (Tuple.point 0 0 0)
    let a := dot ray.direction ray.direction
    let b := 2 * dot ray.direction sphere_to_ray
    let c := dot sphere_to_ray sphere_to_ray - 1
    let discriminant := b ^ 2 - 4 * a * c
    Res.ok
      (if 0 ≤ discriminant then
        [⟨(-b - Real.sqrt discriminant) / (2 * a), s⟩,
         ⟨(-b + Real.sqrt discriminant) / (2 * a), s⟩]
      else [])
  | _ => Res.panics

end Ray

/-- World from src/world.rs. -/
structure World where
  objects : List Sphere
  lights : List PointLight

/-- World.new from src/world.rs: no objects, no lights. -/
def World.new : World := ⟨[], []⟩

/-- Modelled from the spec: the fluent builder Matrix.scale used by
src/world.rs (Matrix::new_identity().scale(x, y, z)) is imported from the
matrices module but not present in the provided src/matrices.rs; per spec
section 4.1 chained transforms compose by matrix multiplication with the
newest transform applied last, i.e. multiplied from the left. -/
def scaleFluent (m : Mat) (x y z : ℝ) : Mat := matMul 4 (scalingM x y z) m

/-- The light of World.default_world from src/world.rs: white intensity at
(-10, 10, -10). -/
def dwLight : PointLight :=
  PointLight.new (Tuple.point (-10) 10 (-10)) (Color.color 1 1 1)

/-- The material of the outer default-world sphere: color (0.8, 1.0, 0.6),
ambient 0.1, diffuse 0.7, specular 0.2, shininess 200. -/
def dwM1 : Material := ⟨Color.color 0.8 1 0.6, 0.1, 0.7, 0.2, 200⟩

/-- The outer default-world sphere: identity transform, material dwM1. -/
def dwS1 : Sphere := ⟨Tuple.point 0 0 0, 1, identityM 4, dwM1⟩

/-- The inner default-world sphere: a default sphere scaled by 0.5. -/
def dwS2 : Sphere :=
  { Sphere.new_unit_sphere with
    transformation := scaleFluent (identityM 4) 0.5 0.5 0.5 }

/-- World.default_world from src/world.rs: one white point light and the two
spheres dwS1 (outer) and dwS2 (inner, scaled 0.5). -/
def World.default_world : World := ⟨[dwS1, dwS2], [dwLight]⟩

/-- Ray.intersections_in_world from src/rays.rs: append the intersections of
every object in order (propagating panics) and sort ascending by t.  Rust
sorts with the stable sort_by over f64::total_cmp, which on the reals is the
usual order; the stable insertion sort produces the same list. -/
def Ray.intersections_in_world (r : Ray) (w : World) : Res (List Intersection) :=
  match w.objects.foldl (fun acc o =>
      match acc, r.intersects o with
      | Res.ok l, Res.ok l2 => Res.ok (l ++ l2)
      | _, _ => Res.panics) (Res.ok []) with
  | Res.ok l => Res.ok (l.insertionSort (fun a b => a.t ≤ b.t))
  | Res.panics => Res.panics

/-- Ray.prepare_computation from src/rays.rs: position at t, eye vector is
the negated direction, normal from normal_at (propagating its panic); when
the normal points away from the eye the hit is inside and the normal is
flipped. -/
def Ray.prepare_computation (r : Ray) (i : Intersection) : Res Computation :=
  let position := r.position i.t
  let eyev := r.direction.neg
  match normal_at i.object position with
  | Res.ok normalv =>
    if dot normalv eyev < 0 then
      Res.ok ⟨i.t, i.object, position, eyev, normalv.neg, true⟩
    else
      Res.ok ⟨i.t, i.object, position, eyev, normalv, false⟩
  | Res.panics => Res.panics

/-- lighting from src/lights.rs: ambient plus (when the light is on the
normal side) diffuse, plus (when the reflection points toward the eye)
specular with the shininess power.  Note the code normalizes the reflection
vector before the dot product. -/
def lighting (material : Material) (light : PointLight) (point eye_vector normal : Tuple) :
    Color :=
  let effective_color := material.color.hadamard light.intensity
  let ambient := effective_color.smul material.ambient
  let light_vector := (light.position.sub point).normalize
  let light_dot_normal := dot light_vector normal
  let diffuse :=
    if 0 < light_dot_normal then
      (effective_color.smul material.diffuse).smul light_dot_normal
    else Color.color 0 0 0
  let specular :=
    if 0 < light_dot_normal then
      let reflect_vector := (reflect light_vector.neg normal).normalize
      let reflect_dot_eye := dot reflect_vector eye_vector
      if 0 < reflect_dot_eye then
        (light.intensity.smul material.specular).smul
          (reflect_dot_eye ^ material.shininess)
      else Color.color 0 0 0
    else Color.color 0 0 0
  (ambient.add diffuse).add specular

/-- World.shade_hit from src/world.rs: lighting with self.lights[0] (the
index panics when the lights collection is empty) and the computation's
material, point, eye vector and normal vector. -/
def World.shade_hit (w : World) (c : Computation) : Res Color :=
  match w.lights with
  | [] => Res.panics
  | l :: _ => Res.ok (lighting c.object.material l c.point c.eyev c.normalv)

/-- World.color_at from src/world.rs: hit over all intersections in the
world; black on a miss, otherwise shade_hit of the prepared computation
(panics propagate). -/
def World.color_at (w : World) (r : Ray) : Res Color :=
  match r.intersections_in_world w with
  | Res.panics => Res.panics
  | Res.ok is =>
    match hit is with
    | some i =>
      match r.prepare_computation i with
      | Res.panics => Res.panics
      | Res.ok comp => w.shade_hit comp
    | none => Res.ok (Color.color 0 0 0)

/-- Camera from src/camera.rs. -/
structure Camera where
  hsize : Nat
  vsize : Nat
  half_width : ℝ
  half_height : ℝ
  pixel_size : ℝ
  field_of_view : ℝ
  transform : Mat

/-- Camera.new from src/camera.rs: half_view = tan(fov/2), aspect =
hsize/vsize, half extents split by the aspect test, pixel_size =
half_width * 2 / hsize, identity transform. -/
def Camera.new (hsize vsize : Nat) (field_of_view : ℝ) : Camera :=
  let half_view := Real.tan (field_of_view / 2)
  let aspect := (hsize : ℝ) / (vsize : ℝ)
  let half_width := if 1 ≤ aspect then half_view else half_view * aspect
  let half_height := if 1 ≤ aspect then half_view / aspect else half_view
  ⟨hsize, vsize, half_width, half_height, half_width * 2 / (hsize : ℝ),
   field_of_view, identityM 4⟩

/-- Camera.ray_for_pixel from src/camera.rs: pixel center offsets, world_x/y
measured from the half extents, the canvas point at z = -1 and the origin
unprojected through the unwrapped inverse of the camera transform (panic
when singular), direction normalized. -/
def Camera.ray_for_pixel (c : Camera) (x y : Nat) : Res Ray :=
  let x_offset := ((x : ℝ) + 0.5) * c.pixel_size
  let y_offset := ((y : ℝ) + 0.5) * c.pixel_size
  let world_x := c.half_width - x_offset
  let world_y := c.half_height - y_offset
  match invertM 4 c.transform with
  | Res.ok (some ti) =>
    let pixel := to_tuple (matMul 4 ti (to_matrix (Tuple.point world_x world_y (-1))))
    let origin := to_tuple (matMul 4 ti (to_matrix (Tuple.point 0 0 0)))
    Res.ok ⟨origin, (pixel.sub origin).normalize⟩
  | _ => Res.panics

/-- Camera.render from src/camera.rs, modelled as the ordered trace of
write_pixel calls into the external canvas sink (the canvas itself is an
excluded collaborator).  The loop bounds are verbatim from the source:
for y in 0..vsize - 1 and for x in 0..hsize - 1. -/
def Camera.render (c : Camera) (w : World) : Res (List ((Nat × Nat) × Color)) :=
  (List.range (c.vsize - 1)).foldl (fun accY y =>
    (List.range (c.hsize - 1)).foldl (fun acc x =>
      match acc with
      | Res.panics => Res.panics
      | Res.ok trace =>
        match c.ray_for_pixel x y with
        | Res.panics => Res.panics
        | Res.ok ray =>
          match w.color_at ray with
          | Res.panics => Res.panics
          | Res.ok color => Res.ok (trace ++ [((x, y), color)])) accY)
    (Res.ok [])

/-
Engine lemmas shared by the claim theorems.
-/

/-- View of the in-range part of a Mat as a Mathlib 4x4 matrix. -/
def toM4 (m : Mat) : Matrix (Fin 4) (Fin 4) ℝ := Matrix.of fun i j => m i j

theorem toM4_apply (m : Mat) (i j : Fin 4) : toM4 m i j = m i j := rfl

/-- The size-4 determinant of the engine agrees with the Mathlib determinant
of the in-range 4x4 part. -/
theorem det4_eq (m : Mat) : det4 m = Res.ok (some ((toM4 m).det)) := by
  rw [show (toM4 m).det = _ from Matrix.det_succ_row_zero (toM4 m)]
  simp only [Matrix.det_fin_three, Fin.sum_univ_succ, Fin.sum_univ_zero,
    Matrix.submatrix_apply, Matrix.of_apply, toM4]
  norm_num [det4, detSum4, cofactor4, minor4, det3, detSum3, cofactor3,
    minor3, submatrixM, subShift, det2, Fin.succAbove, Fin.lt_def]
  ring

theorem cofactor3_ok (m : Mat) (row col : Nat) (hr : row < 3) (hc : col < 3) :
    ∃ v, cofactor3 m row col = Res.ok (some v) := by
  have hs : submatrixM 3 3 2 2 m row col = some (subShift m row col) := by
    simp [submatrixM]
    omega
  simp only [cofactor3, minor3, hs]
  exact ⟨_, rfl⟩

theorem det3_ok (m : Mat) : ∃ d, det3 m = Res.ok (some d) := by
  have h0 := cofactor3_ok m 0 0 (by omega) (by omega)
  have h1 := cofactor3_ok m 0 1 (by omega) (by omega)
  have h2 := cofactor3_ok m 0 2 (by omega) (by omega)
  obtain ⟨v0, h0⟩ := h0
  obtain ⟨v1, h1⟩ := h1
  obtain ⟨v2, h2⟩ := h2
  refine ⟨0 + m 0 0 * v0 + m 0 1 * v1 + m 0 2 * v2, ?_⟩
  simp [det3, detSum3, h0, h1, h2]

theorem cofactor4_ok (m : Mat) (row col : Nat) (hr : row < 4) (hc : col < 4) :
    ∃ v, cofactor4 m row col = Res.ok (some v) := by
  have hs : submatrixM 4 4 3 3 m row col = some (subShift m row col) := by
    simp [submatrixM]
    omega
  obtain ⟨d, hd⟩ := det3_ok (subShift m row col)
  simp only [cofactor4, minor4, hs, hd]
  exact ⟨_, rfl⟩

theorem cofactorM_four (m : Mat) (row col : Nat) :
    cofactorM 4 m row col = cofactor4 m row col := by
  simp only [cofactorM, minorM, cofactor4]
  norm_num

theorem cofactorM_three (m : Mat) (row col : Nat) :
    cofactorM 3 m row col = cofactor3 m row col := by
  simp only [cofactorM, minorM, cofactor3]
  norm_num

theorem detM_four (m : Mat) : detM 4 m = det4 m := by
  simp [detM]

theorem detM_three (m : Mat) : detM 3 m = det3 m := by
  simp [detM]

theorem detM_two (m : Mat) : detM 2 m = Res.ok (some (det2 m)) := by
  simp [detM]

/-- When the size-4 determinant is nonzero, invert succeeds and fills entry
(i, j) with cofactor(j, i) / det. -/
theorem invert4_of_det_ne (m : Mat) (hd : (toM4 m).det ≠ 0) :
    invertM 4 m =
      Res.ok (some (fun i j => resVal (cofactor4 m j i) / (toM4 m).det)) := by
  have hall : ((List.range 4).all (fun row =>
      (List.range 4).all (fun col => isOkSome (cofactorM 4 m row col)))) = true := by
    rw [List.all_eq_true]
    intro row hrow
    rw [List.all_eq_true]
    intro col hcol
    rw [List.mem_range] at hrow hcol
    obtain ⟨v, hv⟩ := cofactor4_ok m row col hrow hcol
    rw [cofactorM_four, hv]
    rfl
  simp only [invertM, detM_four, det4_eq]
  norm_num [hd, hall]
  funext i j
  rw [cofactorM_four]

theorem invert4_of_det_zero (m : Mat) (hd : (toM4 m).det = 0) :
    invertM 4 m = Res.ok none := by
  simp only [invertM, detM_four, det4_eq]
  norm_num [hd]

set_option maxHeartbeats 1600000 in
/-- The cofactor expansion identity along rows: multiplying row i of m with
the cofactors of row j sums to the determinant when i = j and to 0
otherwise. -/
theorem rowExpansion (m : Mat) (i j : Nat) (hi : i < 4) (hj : j < 4) :
    ∑ k ∈ Finset.range 4, m i k * resVal (cofactor4 m j k) =
      if i = j then (toM4 m).det else 0 := by
  have hdet : (toM4 m).det = resVal (det4 m) := by rw [det4_eq]; rfl
  rw [hdet]
  interval_cases i <;> interval_cases j <;>
    norm_num [Finset.sum_range_succ, resVal, cofactor4, minor4, det4,
      detSum4, det3, detSum3, cofactor3, minor3, submatrixM, subShift,
      det2] <;> ring

/-- An in-range entry of the engine 4x4 product is the corresponding entry of
the Mathlib product. -/
theorem matMul_toM4 (a b : Mat) (i j : Nat) (hi : i < 4) (hj : j < 4) :
    matMul 4 a b i j = (toM4 a * toM4 b) ⟨i, hi⟩ ⟨j, hj⟩ := by
  rw [Matrix.mul_apply, matMul]
  rw [← Fin.sum_univ_eq_sum_range (fun k => a i k * b k j) 4]
  rfl

theorem toM4_matMul (a b : Mat) : toM4 (matMul 4 a b) = toM4 a * toM4 b := by
  ext i j
  exact matMul_toM4 a b i j i.isLt j.isLt

/-- Successful inversion forces a nonzero determinant and the explicit
cofactor-transpose form of the result. -/
theorem invert4_some_elim (m mi : Mat) (h : invertM 4 m = Res.ok (some mi)) :
    (toM4 m).det ≠ 0 ∧
      mi = fun i j => resVal (cofactor4 m j i) / (toM4 m).det := by
  by_cases hd : (toM4 m).det = 0
  · rw [invert4_of_det_zero m hd] at h
    cases h
  · rw [invert4_of_det_ne m hd] at h
    cases h
    exact ⟨hd, rfl⟩

/-- The engine inverse is a right inverse: m * invert(m) is the identity. -/
theorem invert4_mul_one (m mi : Mat) (h : invertM 4 m = Res.ok (some mi)) :
    toM4 m * toM4 mi = 1 := by
  obtain ⟨hd, hmi⟩ := invert4_some_elim m mi h
  ext i j
  rw [Matrix.mul_apply, Matrix.one_apply]
  simp only [toM4, Matrix.of_apply]
  rw [Fin.sum_univ_eq_sum_range (fun k => m i k * mi k j) 4]
  have : ∀ k ∈ Finset.range 4,
      m (i : Nat) k * mi k (j : Nat) =
        m i k * resVal (cofactor4 m j k) / (toM4 m).det := by
    intro k hk
    rw [hmi]
    ring
  rw [Finset.sum_congr rfl this, ← Finset.sum_div]
  rw [rowExpansion m i j i.isLt j.isLt]
  by_cases hij : (i : Nat) = (j : Nat)
  · rw [if_pos hij, if_pos (Fin.ext hij), div_self hd]
  · rw [if_neg hij, if_neg (fun hf => hij (congrArg Fin.val hf)), zero_div]

/-- The engine inverse is also a left inverse. -/
theorem invert4_one_mul (m mi : Mat) (h : invertM 4 m = Res.ok (some mi)) :
    toM4 mi * toM4 m = 1 :=
  Matrix.mul_eq_one_comm.mp (invert4_mul_one m mi h)

/-- The in-range 4x4 part of the identity matrix is the Mathlib identity. -/
theorem toM4_identity : toM4 (identityM 4) = 1 := by
  ext i j
  rw [toM4_apply, Matrix.one_apply, identityM]
  by_cases hij : i = j
  · rw [if_pos hij, if_pos ⟨congrArg Fin.val hij, i.isLt⟩]
  · rw [if_neg hij, if_neg]
    intro hf
    exact hij (Fin.ext hf.1)

/-- The determinant of an invertible matrix's engine inverse is nonzero. -/
theorem invert4_det_ne (m mi : Mat) (h : invertM 4 m = Res.ok (some mi)) :
    (toM4 mi).det ≠ 0 := by
  have h1 := invert4_mul_one m mi h
  have hdet : (toM4 m).det * (toM4 mi).det = 1 := by
    rw [← Matrix.det_mul, h1, Matrix.det_one]
  intro hz
  rw [hz, mul_zero] at hdet
  exact zero_ne_one hdet

/-- C6: for every 4x4 matrix M the engine can invert, M * invert(M) matches
the identity entrywise within 1e-5, and invert(invert(M)) succeeds and
matches M entrywise within 1e-5. -/
theorem C6_invert_roundtrip (m mi : Mat) (h : invertM 4 m = Res.ok (some mi)) :
    (∀ i j, i < 4 → j < 4 →
      |matMul 4 m mi i j - identityM 4 i j| < 1e-5) ∧
    ∃ mii, invertM 4 mi = Res.ok (some mii) ∧
      ∀ i j, i < 4 → j < 4 → |mii i j - m i j| < 1e-5 := by
  have h1 := invert4_mul_one m mi h
  constructor
  · intro i j hi hj
    rw [matMul_toM4 m mi i j hi hj, h1, Matrix.one_apply, identityM]
    by_cases hij : i = j
    · rw [if_pos (Fin.ext hij), if_pos ⟨hij, hi⟩]
      norm_num
    · rw [if_neg (fun hf => hij (congrArg Fin.val hf)), if_neg (fun hf => hij hf.1)]
      norm_num
  · have hdmi := invert4_det_ne m mi h
    have hmii := invert4_of_det_ne mi hdmi
    refine ⟨_, hmii, ?_⟩
    have h2 := invert4_mul_one mi _ hmii
    have heq : toM4 (fun i j => resVal (cofactor4 mi j i) / (toM4 mi).det) = toM4 m := by
      calc toM4 (fun i j => resVal (cofactor4 mi j i) / (toM4 mi).det)
          = 1 * toM4 (fun i j => resVal (cofactor4 mi j i) / (toM4 mi).det) := by
            rw [one_mul]
        _ = toM4 m * toM4 mi *
            toM4 (fun i j => resVal (cofactor4 mi j i) / (toM4 mi).det) := by rw [h1]
        _ = toM4 m * (toM4 mi *
            toM4 (fun i j => resVal (cofactor4 mi j i) / (toM4 mi).det)) := by
            rw [Matrix.mul_assoc]
        _ = toM4 m * 1 := by rw [h2]
        _ = toM4 m := by rw [mul_one]
    intro i j hi hj
    have h3 : ∀ a b : Fin 4,
        toM4 (fun i j => resVal (cofactor4 mi j i) / (toM4 mi).det) a b =
          toM4 m a b := fun a b => by rw [heq]
    have h4 := h3 ⟨i, hi⟩ ⟨j, hj⟩
    simp only [toM4_apply] at h4
    rw [h4]
    norm_num

/-- Witness for C6 at the identity matrix. -/
theorem C6_witness :
    ∃ mi, invertM 4 (identityM 4) = Res.ok (some mi) ∧
      (∀ i j, i < 4 → j < 4 →
        |matMul 4 (identityM 4) mi i j - identityM 4 i j| < 1e-5) ∧
      ∃ mii, invertM 4 mi = Res.ok (some mii) ∧
        ∀ i j, i < 4 → j < 4 → |mii i j - identityM 4 i j| < 1e-5 := by
  have hdet : (toM4 (identityM 4)).det ≠ 0 := by
    rw [toM4_identity, Matrix.det_one]
    norm_num
  have h := invert4_of_det_ne (identityM 4) hdet
  exact ⟨_, h, (C6_invert_roundtrip _ _ h).1, (C6_invert_roundtrip _ _ h).2⟩

/-
Claim C2: minor versus the determinant of the submatrix.
-/

/-- C2 (amended): for sizes 3 and 4 with in-range indices, minor(M, row, col)
is the determinant of submatrix(M, row, col); for size 2, minor(M, row, col)
returns the determinant of M itself, ignoring row and col. -/
theorem C2_minor_submatrix (m : Mat) (row col : Nat) :
    minorM 2 m row col = detM 2 m ∧
    (row < 3 → col < 3 →
      submatrixM 3 3 2 2 m row col = some (subShift m row col) ∧
      minorM 3 m row col = detM 2 (subShift m row col)) ∧
    (row < 4 → col < 4 →
      submatrixM 4 4 3 3 m row col = some (subShift m row col) ∧
      minorM 4 m row col = detM 3 (subShift m row col)) := by
  refine ⟨by simp [minorM, detM], fun hr hc => ?_, fun hr hc => ?_⟩
  · have hs : submatrixM 3 3 2 2 m row col = some (subShift m row col) := by
      simp [submatrixM]
      omega
    exact ⟨hs, by simp [minorM, minor3, hs, detM]⟩
  · have hs : submatrixM 4 4 3 3 m row col = some (subShift m row col) := by
      simp [submatrixM]
      omega
    exact ⟨hs, by simp [minorM, minor4, hs, detM]⟩

/-- The 2x2 matrix [[1, 2], [3, 4]] used to refute C2 as stated, stored in
the zero-padded function representation. -/
def m2ex : Mat := mat4 1 2 0 0 3 4 0 0 0 0 0 0 0 0 0 0

/-- Counterexample to C2 as stated: for the 2x2 matrix [[1, 2], [3, 4]] and
row = col = 0, minor returns det(M) = -2, while the 1x1 submatrix is [[4]],
whose determinant (its sole entry mathematically; None for the engine's det)
is not -2: minor is not the determinant of the submatrix at size 2. -/
theorem C2_counterexample :
    minorM 2 m2ex 0 0 = Res.ok (some (-2)) ∧
    submatrixM 2 2 1 1 m2ex 0 0 = some (subShift m2ex 0 0) ∧
    subShift m2ex 0 0 0 0 = 4 ∧
    detM 1 (subShift m2ex 0 0) = Res.ok none ∧
    Res.ok (some (-2 : ℝ)) ≠ Res.ok none ∧ (-2 : ℝ) ≠ 4 := by
  refine ⟨?_, ?_, ?_, ?_, ?_, by norm_num⟩
  · norm_num [minorM, detM, det2, m2ex, mat4]
  · norm_num [submatrixM]
  · norm_num [subShift, m2ex, mat4]
  · norm_num [detM]
  · intro hf
    cases hf

/-- Witness for C2 at the 3x3 matrix [[3, 5, 0], [2, -1, -7], [6, -1, 5]]
from the source tests: minor(1, 0) is the determinant of the submatrix,
which evaluates to 25. -/
theorem C2_witness :
    minorM 3 (mat4 3 5 0 0 2 (-1) (-7) 0 6 (-1) 5 0 0 0 0 0) 1 0 =
      Res.ok (some 25) := by
  have h := (C2_minor_submatrix (mat4 3 5 0 0 2 (-1) (-7) 0 6 (-1) 5 0 0 0 0 0)
    1 0).2.1 (by norm_num) (by norm_num)
  rw [h.2]
  norm_num [detM, det2, subShift, mat4]

/-
Claim C7: error results of invert, determinant and cofactor.
-/

theorem cofactorM_two (m : Mat) (row col : Nat) :
    cofactorM 2 m row col =
      Res.ok (some (if (row + col) % 2 ≠ 0 then -(det2 m) else det2 m)) := by
  simp [cofactorM, minorM]

/-- When the size is supported, the determinant exists, is nonzero and every
in-range cofactor exists, invert returns the cofactor-transpose matrix. -/
theorem invert_entries (R : Nat) (m : Mat) (d : ℝ) (hR : ¬ 4 < R)
    (hdet : detM R m = Res.ok (some d)) (hne : d ≠ 0)
    (hcof : ∀ row col, row < R → col < R →
      ∃ c, cofactorM R m row col = Res.ok (some c)) :
    invertM R m = Res.ok (some (fun i j => resVal (cofactorM R m j i) / d)) := by
  have hall : ((List.range R).all (fun row =>
      (List.range R).all (fun col => isOkSome (cofactorM R m row col)))) = true := by
    rw [List.all_eq_true]
    intro row hrow
    rw [List.all_eq_true]
    intro col hcol
    rw [List.mem_range] at hrow hcol
    obtain ⟨c, hc⟩ := hcof row col hrow hcol
    rw [hc]
    rfl
  simp only [invertM, hdet, hall]
  rw [if_neg hR, if_neg hne]
  simp

/-- When the size is supported but the determinant is zero, invert returns
the recoverable None. -/
theorem invert_none_of_det_zero (R : Nat) (m : Mat) (hR : ¬ 4 < R)
    (hdet : detM R m = Res.ok (some 0)) : invertM R m = Res.ok none := by
  simp only [invertM, hdet]
  rw [if_neg hR]
  simp

/-- Existence and in-range cofactor existence for each supported size. -/
theorem det_cof_ok_of_supported (R : Nat) (m : Mat)
    (hsupp : R = 2 ∨ R = 3 ∨ R = 4) :
    (∃ d, detM R m = Res.ok (some d)) ∧
      ∀ row col, row < R → col < R →
        ∃ c, cofactorM R m row col = Res.ok (some c) := by
  rcases hsupp with h | h | h <;> subst h
  · exact ⟨⟨det2 m, detM_two m⟩, fun row col _ _ =>
      ⟨_, cofactorM_two m row col⟩⟩
  · obtain ⟨d, hd⟩ := det3_ok m
    refine ⟨⟨d, by rw [detM_three m, hd]⟩, fun row col hr hc => ?_⟩
    obtain ⟨c, hcok⟩ := cofactor3_ok m row col hr hc
    exact ⟨c, by rw [cofactorM_three m row col, hcok]⟩
  · refine ⟨⟨(toM4 m).det, by rw [detM_four m, det4_eq]⟩,
      fun row col hr hc => ?_⟩
    obtain ⟨c, hcok⟩ := cofactor4_ok m row col hr hc
    exact ⟨c, by rw [cofactorM_four m row col, hcok]⟩

/-- C7 (amended): for every size R at least 2, invert returns the
recoverable None exactly when the determinant value is 0 or R exceeds 4, and
a successful inversion carries entry [col][row] = cofactor(row, col) / det
with a nonzero determinant; determinant and cofactor return the recoverable
None for every unsupported size above 4.  For the unsupported sizes 0 and 1,
however, cofactor and invert panic on an unwrap instead of returning None
(the determinant still returns None there). -/
theorem C7_error_results :
    (∀ R m, 2 ≤ R →
      (invertM R m = Res.ok none ↔ detM R m = Res.ok (some 0) ∨ 4 < R) ∧
      (∀ mi, invertM R m = Res.ok (some mi) →
        ∃ d, detM R m = Res.ok (some d) ∧ d ≠ 0 ∧
          ∀ row col, row < R → col < R →
            ∃ c, cofactorM R m row col = Res.ok (some c) ∧ mi col row = c / d) ∧
      (4 < R → detM R m = Res.ok none ∧
        ∀ row col, cofactorM R m row col = Res.ok none)) ∧
    (∀ (m : Mat) (row col : Nat),
      cofactorM 0 m row col = Res.panics ∧
      cofactorM 1 m row col = Res.panics ∧
      invertM 0 m = Res.panics ∧ invertM 1 m = Res.panics ∧
      detM 0 m = Res.ok none ∧ detM 1 m = Res.ok none) := by
  constructor
  · intro R m hR
    by_cases hbig : 4 < R
    · refine ⟨?_, ?_, fun _ => ?_⟩
      · simp only [invertM, if_pos hbig]
        exact ⟨fun _ => Or.inr hbig, fun _ => trivial⟩
      · intro mi hmi
        rw [invertM, if_pos hbig] at hmi
        cases hmi
      · constructor
        · simp only [detM]
          rw [if_neg (by omega), if_neg (by omega), if_neg (by omega)]
        · intro row col
          simp only [cofactorM, if_pos hbig]
    · have hsupp : R = 2 ∨ R = 3 ∨ R = 4 := by omega
      obtain ⟨⟨d, hd⟩, hcof⟩ := det_cof_ok_of_supported R m hsupp
      refine ⟨?_, ?_, fun hf => absurd hf hbig⟩
      · constructor
        · intro hnone
          by_cases hz : d = 0
          · exact Or.inl (hz ▸ hd)
          · rw [invert_entries R m d hbig hd hz hcof] at hnone
            cases hnone
        · intro hcase
          rcases hcase with hzero | hf
          · rw [hd] at hzero
            cases hzero
            exact invert_none_of_det_zero R m hbig hd
          · exact absurd hf hbig
      · intro mi hmi
        by_cases hz : d = 0
        · rw [invert_none_of_det_zero R m hbig (hz ▸ hd)] at hmi
          cases hmi
        · rw [invert_entries R m d hbig hd hz hcof] at hmi
          cases hmi
          refine ⟨d, hd, hz, fun row col hr hc => ?_⟩
          obtain ⟨c, hcok⟩ := hcof row col hr hc
          exact ⟨c, hcok, by simp [hcok, resVal]⟩
  · intro m row col
    refine ⟨?_, ?_, ?_, ?_, ?_, ?_⟩ <;>
      simp [cofactorM, minorM, invertM, detM]

/-- Counterexample to C7 as stated, at the unsupported size 1: on the 1x1
matrix [[1.0]] the cofactor and invert calls panic on an unwrap instead of
returning a recoverable None (the determinant is None, not 0, so the claim
says invert should have returned the cofactor matrix). -/
theorem C7_counterexample :
    cofactorM 1 (fun _ _ => (1 : ℝ)) 0 0 = Res.panics ∧
    invertM 1 (fun _ _ => (1 : ℝ)) = Res.panics ∧
    detM 1 (fun _ _ => (1 : ℝ)) = Res.ok none ∧
    (Res.panics : Res (Option ℝ)) ≠ Res.ok none := by
  refine ⟨?_, ?_, ?_, fun hf => by cases hf⟩ <;>
    simp [cofactorM, minorM, invertM, detM]

/-- Witness for C7 at size 5 on the zero matrix: determinant, cofactor and
invert all return the recoverable None. -/
theorem C7_witness :
    detM 5 matNew = Res.ok none ∧
    cofactorM 5 matNew 0 0 = Res.ok none ∧
    invertM 5 matNew = Res.ok none := by
  have h := (C7_error_results.1 5 matNew (by norm_num))
  refine ⟨(h.2.2 (by norm_num)).1, (h.2.2 (by norm_num)).2 0 0, ?_⟩
  exact h.1.mpr (Or.inr (by norm_num))

/-
Claim C8: a singular sphere transform makes normal_at and intersects panic;
with an invertible transform the panic branch is unreachable.
-/

/-- C8: when the sphere's transform has determinant 0, normal_at and
intersects terminate in the fatal panic of the unwrap on the failed
inversion; when invert succeeds, both functions return normally. -/
theorem C8_singular_transform_fatal :
    (∀ (s : Sphere) (p : Tuple) (r : Ray),
      detM 4 s.transformation = Res.ok (some 0) →
      normal_at s p = Res.panics ∧ r.intersects s = Res.panics) ∧
    (∀ (s : Sphere) (p : Tuple) (r : Ray) (ti : Mat),
      invertM 4 s.transformation = Res.ok (some ti) →
      (∃ v, normal_at s p = Res.ok v) ∧ ∃ l, r.intersects s = Res.ok l) := by
  constructor
  · intro s p r hdet
    have hnone : invertM 4 s.transformation = Res.ok none :=
      invert_none_of_det_zero 4 s.transformation (by omega) hdet
    constructor
    · rw [normal_at, hnone]
    · rw [Ray.intersects, hnone]
  · intro s p r ti hinv
    constructor
    · rw [normal_at, hinv]
      exact ⟨_, rfl⟩
    · rw [Ray.intersects, hinv]
      exact ⟨_, rfl⟩

/-- The all-zero transform used to witness C8. -/
def zeroSphere : Sphere := { Sphere.new_unit_sphere with transformation := matNew }

theorem detM_matNew : detM 4 matNew = Res.ok (some 0) := by
  norm_num [detM, det4, detSum4, cofactor4, minor4, det3, detSum3, cofactor3,
    minor3, submatrixM, subShift, det2, matNew]

theorem invert_identity : invertM 4 (identityM 4) =
    Res.ok (some (fun i j => resVal (cofactor4 (identityM 4) j i) / (toM4 (identityM 4)).det)) := by
  apply invert4_of_det_ne
  rw [toM4_identity, Matrix.det_one]
  norm_num

/-- Witness for C8: the all-zero transform panics in normal_at and in
intersects; the identity transform returns normally. -/
theorem C8_witness :
    normal_at zeroSphere (Tuple.point 0 0 1) = Res.panics ∧
    Ray.intersects ⟨Tuple.point 0 0 (-5), Tuple.vector 0 0 1⟩ zeroSphere =
      Res.panics ∧
    ∃ v, normal_at Sphere.new_unit_sphere (Tuple.point 0 0 1) = Res.ok v := by
  have h1 := C8_singular_transform_fatal.1 zeroSphere (Tuple.point 0 0 1)
    ⟨Tuple.point 0 0 (-5), Tuple.vector 0 0 1⟩ detM_matNew
  have h2 := C8_singular_transform_fatal.2 Sphere.new_unit_sphere
    (Tuple.point 0 0 1) ⟨Tuple.point 0 0 (-5), Tuple.vector 0 0 1⟩ _
    invert_identity
  exact ⟨h1.1, h1.2, h2.1⟩

/-
Claim C3: hit selection.
-/

theorem foldl_hitStep_some (l : List Intersection) (m : Intersection) :
    ∃ r, List.foldl hitStep (some m) l = some r := by
  induction l generalizing m with
  | nil => exact ⟨m, rfl⟩
  | cons x l ih =>
    rw [List.foldl_cons]
    rcases hx : hitStep (some m) x with _ | m'
    · exfalso
      rw [hitStep] at hx
      by_cases h0 : 0 ≤ x.t
      · rw [if_pos h0] at hx
        by_cases hlt : x.t < m.t <;> simp [hlt] at hx
      · rw [if_neg h0] at hx
        cases hx
    · exact hx ▸ ih m'

/-- Invariant of the hit fold started from a candidate m: either m survives
and nothing non-negative in the remaining list beats it, or the result is
the first element of the list that strictly improves on m and on everything
before it. -/
theorem foldl_hitStep_spec (l : List Intersection) :
    ∀ m r, List.foldl hitStep (some m) l = some r →
    (r = m ∧ ∀ j ∈ l, j.t < 0 ∨ m.t ≤ j.t) ∨
    (∃ pre suf, l = pre ++ r :: suf ∧ 0 ≤ r.t ∧ r.t < m.t ∧
      (∀ j ∈ pre, j.t < 0 ∨ r.t < j.t) ∧
      (∀ j ∈ suf, j.t < 0 ∨ r.t ≤ j.t)) := by
  induction l with
  | nil =>
    intro m r h
    rw [List.foldl_nil] at h
    cases h
    exact Or.inl ⟨rfl, by simp⟩
  | cons x l ih =>
    intro m r h
    rw [List.foldl_cons, hitStep] at h
    by_cases h0 : 0 ≤ x.t
    · rw [if_pos h0] at h
      by_cases hlt : x.t < m.t
      · rw [if_pos hlt] at h
        rcases ih x r h with ⟨rfl, hall⟩ | ⟨pre, suf, hl, hr0, hrx, hpre, hsuf⟩
        · exact Or.inr ⟨[], l, rfl, h0, hlt, by simp, hall⟩
        · refine Or.inr ⟨x :: pre, suf, by rw [hl]; rfl, hr0,
            lt_trans hrx hlt, ?_, hsuf⟩
          intro j hj
          rcases List.mem_cons.mp hj with rfl | hj
          · exact Or.inr hrx
          · exact hpre j hj
      · rw [if_neg hlt] at h
        rcases ih m r h with ⟨rfl, hall⟩ | ⟨pre, suf, hl, hr0, hrm, hpre, hsuf⟩
        · refine Or.inl ⟨rfl, ?_⟩
          intro j hj
          rcases List.mem_cons.mp hj with rfl | hj
          · exact Or.inr (not_lt.mp hlt)
          · exact hall j hj
        · refine Or.inr ⟨x :: pre, suf, by rw [hl]; rfl, hr0, hrm, ?_, hsuf⟩
          intro j hj
          rcases List.mem_cons.mp hj with rfl | hj
          · exact Or.inr (lt_of_lt_of_le hrm (not_lt.mp hlt))
          · exact hpre j hj
    · rw [if_neg h0] at h
      rcases ih m r h with ⟨rfl, hall⟩ | ⟨pre, suf, hl, hr0, hrm, hpre, hsuf⟩
      · refine Or.inl ⟨rfl, ?_⟩
        intro j hj
        rcases List.mem_cons.mp hj with rfl | hj
        · exact Or.inl (lt_of_not_ge h0)
        · exact hall j hj
      · refine Or.inr ⟨x :: pre, suf, by rw [hl]; rfl, hr0, hrm, ?_, hsuf⟩
        intro j hj
        rcases List.mem_cons.mp hj with rfl | hj
        · exact Or.inl (lt_of_not_ge h0)
        · exact hpre j hj

/-- Invariant of the hit fold started from no candidate. -/
theorem foldl_hitStep_none_spec (l : List Intersection) :
    (List.foldl hitStep none l = none ↔ ∀ j ∈ l, j.t < 0) ∧
    (∀ r, List.foldl hitStep none l = some r →
      ∃ pre suf, l = pre ++ r :: suf ∧ 0 ≤ r.t ∧
        (∀ j ∈ pre, j.t < 0 ∨ r.t < j.t) ∧
        (∀ j ∈ suf, j.t < 0 ∨ r.t ≤ j.t)) := by
  induction l with
  | nil =>
    refine ⟨by simp, ?_⟩
    intro r h
    rw [List.foldl_nil] at h
    cases h
  | cons x l ih =>
    have hstep : hitStep none x = if 0 ≤ x.t then some x else none := rfl
    by_cases h0 : 0 ≤ x.t
    · rw [if_pos h0] at hstep
      constructor
      · rw [List.foldl_cons, hstep]
        obtain ⟨r, hr⟩ := foldl_hitStep_some l x
        constructor
        · intro hf
          rw [hr] at hf
          cases hf
        · intro hall
          exact absurd (hall x (by simp)) (not_lt.mpr h0)
      · intro r h
        rw [List.foldl_cons, hstep] at h
        rcases foldl_hitStep_spec l x r h with ⟨rfl, hall⟩ |
          ⟨pre, suf, hl, hr0, hrx, hpre, hsuf⟩
        · exact ⟨[], l, rfl, h0, by simp, hall⟩
        · refine ⟨x :: pre, suf, by rw [hl]; rfl, hr0, ?_, hsuf⟩
          intro j hj
          rcases List.mem_cons.mp hj with rfl | hj
          · exact Or.inr hrx
          · exact hpre j hj
    · rw [if_neg h0] at hstep
      have hfold : List.foldl hitStep none (x :: l) = List.foldl hitStep none l := by
        rw [List.foldl_cons, hstep]
      constructor
      · rw [hfold]
        constructor
        · intro h j hj
          rcases List.mem_cons.mp hj with rfl | hj
          · exact lt_of_not_ge h0
          · exact ih.1.mp h j hj
        · intro hall
          exact ih.1.mpr (fun j hj => hall j (List.mem_cons_of_mem x hj))
      · intro r h
        rw [hfold] at h
        obtain ⟨pre, suf, hl, hr0, hpre, hsuf⟩ := ih.2 r h
        refine ⟨x :: pre, suf, by rw [hl]; rfl, hr0, ?_, hsuf⟩
        intro j hj
        rcases List.mem_cons.mp hj with rfl | hj
        · exact Or.inl (lt_of_not_ge h0)
        · exact hpre j hj

/-- C3: hit returns None exactly when the list is empty or every t is
negative; otherwise it returns an intersection with the smallest
non-negative t, taken at its first occurrence (everything earlier in the
list is negative or strictly larger); on the t-list [5, 7, -3, 2] it returns
the intersection with t = 2. -/
theorem C3_hit (l : List Intersection) :
    (hit l = none ↔ ∀ j ∈ l, j.t < 0) ∧
    (∀ r, hit l = some r →
      0 ≤ r.t ∧ (∀ j ∈ l, 0 ≤ j.t → r.t ≤ j.t) ∧
      ∃ pre suf, l = pre ++ r :: suf ∧ ∀ j ∈ pre, j.t < 0 ∨ r.t < j.t) ∧
    (∀ s : Sphere, hit [⟨5, s⟩, ⟨7, s⟩, ⟨-3, s⟩, ⟨2, s⟩] = some ⟨2, s⟩) := by
  refine ⟨?_, ?_, ?_⟩
  · rcases l with _ | ⟨x, l⟩
    · simp [hit]
    · rw [hit, if_neg (by simp)]
      exact (foldl_hitStep_none_spec (x :: l)).1
  · intro r h
    rcases l with _ | ⟨x, l⟩
    · simp [hit] at h
    · rw [hit, if_neg (by simp)] at h
      obtain ⟨pre, suf, hl, hr0, hpre, hsuf⟩ :=
        (foldl_hitStep_none_spec (x :: l)).2 r h
      refine ⟨hr0, ?_, pre, suf, hl, hpre⟩
      intro j hj hj0
      rw [hl] at hj
      rcases List.mem_append.mp hj with hj | hj
      · rcases hpre j hj with hneg | hlt
        · exact absurd hj0 (not_le.mpr hneg)
        · exact le_of_lt hlt
      · rcases List.mem_cons.mp hj with rfl | hj
        · exact le_refl _
        · rcases hsuf j hj with hneg | hle
          · exact absurd hj0 (not_le.mpr hneg)
          · exact hle
  · intro s
    norm_num [hit, hitStep]

/-
Claim C4: ray-sphere intersection.
-/

/-- Coefficient a of the unit-sphere quadratic for an object-space ray, as
the claim states it: dot(direction, direction). -/
def quadA (r : Ray) : ℝ := dot r.direction r.direction

/-- Coefficient b: 2 * dot(direction, origin - object origin). -/
def quadB (r : Ray) : ℝ :=
  2 * dot r.direction (r.origin.sub (Tuple.point 0 0 0))

/-- Coefficient c: dot(o, o) - 1 for o = origin - object origin. -/
def quadC (r : Ray) : ℝ :=
  dot (r.origin.sub (Tuple.point 0 0 0)) (r.origin.sub (Tuple.point 0 0 0)) - 1

/-- Discriminant b^2 - 4 a c of the unit-sphere quadratic. -/
def quadDisc (r : Ray) : ℝ := quadB r ^ 2 - 4 * quadA r * quadC r

theorem dot_self_nonneg (v : Tuple) : 0 ≤ dot v v := by
  rcases v with ⟨x, y, z, w⟩
  simp only [dot]
  nlinarith [mul_self_nonneg x, mul_self_nonneg y, mul_self_nonneg z,
    mul_self_nonneg w]

theorem dot_self_eq_zero (v : Tuple) (h : dot v v = 0) : v = ⟨0, 0, 0, 0⟩ := by
  rcases v with ⟨x, y, z, w⟩
  simp only [dot] at h
  have hx : x = 0 := by
    nlinarith [mul_self_nonneg x, mul_self_nonneg y, mul_self_nonneg z,
      mul_self_nonneg w]
  have hy : y = 0 := by
    nlinarith [mul_self_nonneg x, mul_self_nonneg y, mul_self_nonneg z,
      mul_self_nonneg w]
  have hz : z = 0 := by
    nlinarith [mul_self_nonneg x, mul_self_nonneg y, mul_self_nonneg z,
      mul_self_nonneg w]
  have hw : w = 0 := by
    nlinarith [mul_self_nonneg x, mul_self_nonneg y, mul_self_nonneg z,
      mul_self_nonneg w]
  rw [hx, hy, hz, hw]

theorem matMul_assoc (C : Nat) (a b c : Mat) :
    matMul C a (matMul C b c) = matMul C (matMul C a b) c := by
  funext i j
  simp only [matMul, Finset.mul_sum, Finset.sum_mul, mul_assoc]
  rw [Finset.sum_comm]

/-- If the inverse transform kills every component of a tuple's column, the
tuple was zero. -/
theorem inv_transform_ne_zero (m ti : Mat) (v : Tuple)
    (h : invertM 4 m = Res.ok (some ti))
    (hv : ∀ i, i < 4 → matMul 4 ti (to_matrix v) i 0 = 0) :
    v = ⟨0, 0, 0, 0⟩ := by
  have h1 := invert4_mul_one m ti h
  have key : ∀ i, i < 4 → to_matrix v i 0 = 0 := by
    intro i hi
    have hassoc := congrFun (congrFun
      (matMul_assoc 4 m ti (to_matrix v)) i) 0
    have hL : matMul 4 m (matMul 4 ti (to_matrix v)) i 0 = 0 := by
      rw [matMul]
      exact Finset.sum_eq_zero (fun k hk => by
        rw [hv k (Finset.mem_range.mp hk), mul_zero])
    have hentry : ∀ k, k < 4 →
        matMul 4 m ti i k = if i = k then 1 else 0 := by
      intro k hk
      rw [matMul_toM4 m ti i k hi hk, h1, Matrix.one_apply]
      by_cases hik : i = k
      · subst hik
        simp
      · rw [if_neg (fun hf => hik (congrArg Fin.val hf)), if_neg hik]
    have hR : matMul 4 (matMul 4 m ti) (to_matrix v) i 0 = to_matrix v i 0 := by
      rw [matMul]
      have : ∀ k ∈ Finset.range 4,
          matMul 4 m ti i k * to_matrix v k 0 =
            if i = k then to_matrix v k 0 else 0 := by
        intro k hk
        rw [hentry k (Finset.mem_range.mp hk)]
        by_cases hik : i = k <;> simp [hik]
      rw [Finset.sum_congr rfl this, Finset.sum_ite_eq]
      rw [if_pos (Finset.mem_range.mpr hi)]
    rw [hL] at hassoc
    rw [hR] at hassoc
    exact hassoc.symm
  have h0 := key 0 (by omega)
  have h1' := key 1 (by omega)
  have h2 := key 2 (by omega)
  have h3 := key 3 (by omega)
  rcases v with ⟨x, y, z, w⟩
  simp only [to_matrix] at h0 h1' h2 h3
  norm_num at h0 h1' h2 h3
  rw [h0, h1', h2, h3]

/-- The engine inverse of the 4x4 identity is the 4x4 identity. -/
theorem invert_identity4 : invertM 4 (identityM 4) = Res.ok (some (identityM 4)) := by
  rw [invert_identity]
  congr 2
  funext i j
  rw [toM4_identity, Matrix.det_one, div_one]
  by_cases hi : i < 4
  · by_cases hj : j < 4
    · interval_cases i <;> interval_cases j <;>
        norm_num [resVal, cofactor4, minor4, det3, detSum3, cofactor3, minor3,
          submatrixM, subShift, det2, identityM]
    · have hsub : submatrixM 4 4 3 3 (identityM 4) j i = none := by
        rw [submatrixM, if_pos]
        left
        omega
      rw [show resVal (cofactor4 (identityM 4) j i) = 0 from by
        rw [cofactor4, minor4, hsub]; rfl]
      rw [identityM]
      rw [if_neg (fun hf => absurd hf.2 (by omega))]
  · have hsub : submatrixM 4 4 3 3 (identityM 4) j i = none := by
      rw [submatrixM, if_pos]
      right
      left
      omega
    rw [show resVal (cofactor4 (identityM 4) j i) = 0 from by
      rw [cofactor4, minor4, hsub]; rfl]
    rw [identityM]
    rw [if_neg (fun hf => absurd hf.2 (by omega))]

/-- Multiplying a tuple's column by the 4x4 identity returns the tuple. -/
theorem to_tuple_matMul_identity (v : Tuple) :
    to_tuple (matMul 4 (identityM 4) (to_matrix v)) = v := by
  rcases v with ⟨x, y, z, w⟩
  simp only [to_tuple, matMul, to_matrix, identityM]
  norm_num [Finset.sum_range_succ]

/-- Transforming a ray by the 4x4 identity returns the ray. -/
theorem transform_identity (r : Ray) : r.transform (identityM 4) = r := by
  rcases r with ⟨o, d⟩
  rw [Ray.transform, to_tuple_matMul_identity, to_tuple_matMul_identity]

theorem sqrt_four : Real.sqrt 4 = 2 := by
  rw [show (4 : ℝ) = 2 ^ 2 by norm_num, Real.sqrt_sq (by norm_num : (0 : ℝ) ≤ 2)]

/-- Closed form of intersects when the transform inverts: the if-expression
over the quadratic discriminant (definitional unfolding of the source
function's lets). -/
theorem intersects_eq (r : Ray) (s : Sphere) (ti : Mat)
    (hinv : invertM 4 s.transformation = Res.ok (some ti)) :
    r.intersects s = Res.ok
      (if 0 ≤ quadDisc (r.transform ti) then
        [⟨(-quadB (r.transform ti) - Real.sqrt (quadDisc (r.transform ti))) /
            (2 * quadA (r.transform ti)), s⟩,
         ⟨(-quadB (r.transform ti) + Real.sqrt (quadDisc (r.transform ti))) /
            (2 * quadA (r.transform ti)), s⟩]
      else []) := by
  rw [Ray.intersects, hinv]
  rfl

/-- Evaluation of intersects on the ray from (0, 0, -5) toward (0, 0, 1)
against the untransformed unit sphere: t = 4 and t = 6. -/
theorem intersects_ex1 :
    Ray.intersects ⟨Tuple.point 0 0 (-5), Tuple.vector 0 0 1⟩
      Sphere.new_unit_sphere =
    Res.ok [⟨4, Sphere.new_unit_sphere⟩, ⟨6, Sphere.new_unit_sphere⟩] := by
  rw [intersects_eq _ _ _ invert_identity4, transform_identity]
  norm_num [quadDisc, quadA, quadB, quadC, dot, Tuple.sub, Tuple.point,
    Tuple.vector, Intersection.mk.injEq]
  rw [sqrt_four]
  norm_num

/-- Evaluation of intersects on the tangent ray from (0, 1, -5): both
intersections have t = 5. -/
theorem intersects_ex2 :
    Ray.intersects ⟨Tuple.point 0 1 (-5), Tuple.vector 0 0 1⟩
      Sphere.new_unit_sphere =
    Res.ok [⟨5, Sphere.new_unit_sphere⟩, ⟨5, Sphere.new_unit_sphere⟩] := by
  rw [intersects_eq _ _ _ invert_identity4, transform_identity]
  norm_num [quadDisc, quadA, quadB, quadC, dot, Tuple.sub, Tuple.point,
    Tuple.vector, Intersection.mk.injEq]

/-- Evaluation of intersects on the missing ray from (0, 2, -5): no
intersections. -/
theorem intersects_ex3 :
    Ray.intersects ⟨Tuple.point 0 2 (-5), Tuple.vector 0 0 1⟩
      Sphere.new_unit_sphere = Res.ok [] := by
  rw [intersects_eq _ _ _ invert_identity4, transform_identity]
  norm_num [quadDisc, quadA, quadB, quadC, dot, Tuple.sub, Tuple.point,
    Tuple.vector]

/-- C4: for a ray with nonzero direction and a sphere whose transform the
engine can invert, intersects transforms the ray into object space, forms
the quadratic a, b, c with discriminant b^2 - 4ac, returns no intersections
when the discriminant is negative and otherwise exactly the two
intersections (-b -+ sqrt(disc)) / (2a) in ascending order tagged with the
sphere; concretely, the ray from (0,0,-5) toward (0,0,1) yields t = 4 and
t = 6 on the unit sphere, the tangent ray from (0,1,-5) yields t = 5 twice,
and the ray from (0,2,-5) misses. -/
theorem C4_intersects :
    (∀ (r : Ray) (s : Sphere) (ti : Mat),
      invertM 4 s.transformation = Res.ok (some ti) →
      r.direction ≠ ⟨0, 0, 0, 0⟩ →
      0 < quadA (r.transform ti) ∧
      (quadDisc (r.transform ti) < 0 → r.intersects s = Res.ok []) ∧
      (0 ≤ quadDisc (r.transform ti) →
        r.intersects s = Res.ok
          [⟨(-quadB (r.transform ti) - Real.sqrt (quadDisc (r.transform ti))) /
              (2 * quadA (r.transform ti)), s⟩,
           ⟨(-quadB (r.transform ti) + Real.sqrt (quadDisc (r.transform ti))) /
              (2 * quadA (r.transform ti)), s⟩] ∧
        (-quadB (r.transform ti) - Real.sqrt (quadDisc (r.transform ti))) /
            (2 * quadA (r.transform ti)) ≤
          (-quadB (r.transform ti) + Real.sqrt (quadDisc (r.transform ti))) /
            (2 * quadA (r.transform ti)))) ∧
    Ray.intersects ⟨Tuple.point 0 0 (-5), Tuple.vector 0 0 1⟩
      Sphere.new_unit_sphere =
      Res.ok [⟨4, Sphere.new_unit_sphere⟩, ⟨6, Sphere.new_unit_sphere⟩] ∧
    Ray.intersects ⟨Tuple.point 0 1 (-5), Tuple.vector 0 0 1⟩
      Sphere.new_unit_sphere =
      Res.ok [⟨5, Sphere.new_unit_sphere⟩, ⟨5, Sphere.new_unit_sphere⟩] ∧
    Ray.intersects ⟨Tuple.point 0 2 (-5), Tuple.vector 0 0 1⟩
      Sphere.new_unit_sphere = Res.ok [] := by
  refine ⟨?_, intersects_ex1, intersects_ex2, intersects_ex3⟩
  intro r s ti hinv hdir
  have ha : 0 < quadA (r.transform ti) := by
    rcases lt_or_eq_of_le (dot_self_nonneg (r.transform ti).direction) with h | h
    · exact h
    · exfalso
      apply hdir
      apply inv_transform_ne_zero s.transformation ti r.direction hinv
      intro i hi
      have hz := dot_self_eq_zero _ h.symm
      have : (r.transform ti).direction =
          to_tuple (matMul 4 ti (to_matrix r.direction)) := rfl
      rw [this] at hz
      have hx := congrArg Tuple.x hz
      have hy := congrArg Tuple.y hz
      have hzz := congrArg Tuple.z hz
      have hw := congrArg Tuple.w hz
      simp only [to_tuple] at hx hy hzz hw
      interval_cases i <;> assumption
  refine ⟨ha, ?_, ?_⟩
  · intro hneg
    rw [intersects_eq r s ti hinv, if_neg (not_le.mpr hneg)]
  · intro hpos
    constructor
    · rw [intersects_eq r s ti hinv, if_pos hpos]
    · have h2a : 0 < 2 * quadA (r.transform ti) := by
        nlinarith
      exact (div_le_div_right h2a).mpr
        (by nlinarith [Real.sqrt_nonneg (quadDisc (r.transform ti))])

/-
Claim C9: the surface normal is a w = 0 tuple of unit length.
-/

/-- Normalizing a tuple whose x, y, z part is nonzero yields magnitude
exactly 1 (the w component does not enter the magnitude). -/
theorem magnitude_normalize (v : Tuple) (h : 0 < v.x ^ 2 + v.y ^ 2 + v.z ^ 2) :
    v.normalize.magnitude = 1 := by
  have hmp : 0 < v.magnitude := Real.sqrt_pos.mpr h
  have hmsq : v.magnitude ^ 2 = v.x ^ 2 + v.y ^ 2 + v.z ^ 2 :=
    Real.sq_sqrt (le_of_lt h)
  have hsum : (v.x / v.magnitude) ^ 2 + (v.y / v.magnitude) ^ 2 +
      (v.z / v.magnitude) ^ 2 = 1 := by
    rw [div_pow, div_pow, div_pow, div_add_div_same, div_add_div_same,
      ← hmsq]
    exact div_self (pow_ne_zero 2 (ne_of_gt hmp))
  have hdef : v.normalize.magnitude = Real.sqrt ((v.x / v.magnitude) ^ 2 +
      (v.y / v.magnitude) ^ 2 + (v.z / v.magnitude) ^ 2) := rfl
  rw [hdef, hsum, Real.sqrt_one]

/-- Entry extraction from a 4x4 Mathlib product equal to the identity. -/
theorem mulEntry (a b : Mat) (h : toM4 a * toM4 b = 1) (i j : Nat)
    (hi : i < 4) (hj : j < 4) :
    a i 0 * b 0 j + a i 1 * b 1 j + a i 2 * b 2 j + a i 3 * b 3 j =
      if i = j then 1 else 0 := by
  have hh := congrArg (fun M => M ⟨i, hi⟩ ⟨j, hj⟩) h
  simp only [Matrix.mul_apply, Fin.sum_univ_four, toM4, Matrix.of_apply,
    Matrix.one_apply, show ((0 : Fin 4) : ℕ) = 0 from rfl,
    show ((1 : Fin 4) : ℕ) = 1 from rfl, show ((2 : Fin 4) : ℕ) = 2 from rfl,
    show ((3 : Fin 4) : ℕ) = 3 from rfl] at hh
  rw [hh]
  by_cases hij : i = j
  · rw [if_pos hij, if_pos (Fin.ext hij)]
  · rw [if_neg hij, if_neg (fun hf => hij (congrArg Fin.val hf))]

/-- C9 (amended): for a sphere whose transform is an invertible affine
matrix (last row 0 0 0 1, as produced by every builder in the source) and a
world point P whose object-space image lies at distance 1 from the origin,
normal_at returns a tuple with w exactly 0 and magnitude exactly 1. -/
theorem C9_normal_unit (s : Sphere) (P : Tuple) (ti : Mat)
    (hinv : invertM 4 s.transformation = Res.ok (some ti))
    (haff : s.transformation 3 0 = 0 ∧ s.transformation 3 1 = 0 ∧
      s.transformation 3 2 = 0 ∧ s.transformation 3 3 = 1)
    (hP : P.w = 1)
    (hsurf : (to_tuple (matMul 4 ti (to_matrix P))).x ^ 2 +
      (to_tuple (matMul 4 ti (to_matrix P))).y ^ 2 +
      (to_tuple (matMul 4 ti (to_matrix P))).z ^ 2 = 1) :
    ∃ n, normal_at s P = Res.ok n ∧ n.w = 0 ∧ n.magnitude = 1 := by
  obtain ⟨hm30, hm31, hm32, hm33⟩ := haff
  have hMTi := invert4_mul_one s.transformation ti hinv
  have hTiM := invert4_one_mul s.transformation ti hinv
  have hti30 : ti 3 0 = 0 := by
    have h := mulEntry s.transformation ti hMTi 3 0 (by omega) (by omega)
    rw [hm30, hm31, hm32, hm33] at h
    norm_num at h
    linarith
  have hti31 : ti 3 1 = 0 := by
    have h := mulEntry s.transformation ti hMTi 3 1 (by omega) (by omega)
    rw [hm30, hm31, hm32, hm33] at h
    norm_num at h
    linarith
  have hti32 : ti 3 2 = 0 := by
    have h := mulEntry s.transformation ti hMTi 3 2 (by omega) (by omega)
    rw [hm30, hm31, hm32, hm33] at h
    norm_num at h
    linarith
  rw [normal_at, hinv]
  refine ⟨_, rfl, rfl, ?_⟩
  apply magnitude_normalize
  set op := to_tuple (matMul 4 ti (to_matrix P)) with hop
  set v := to_tuple (matMul 4 (transposeM ti)
    (to_matrix (op.sub (Tuple.point 0 0 0)))) with hv
  rcases lt_or_eq_of_le (by positivity : (0 : ℝ) ≤ v.x ^ 2 + v.y ^ 2 + v.z ^ 2)
    with hpos | hzero
  · exact hpos
  · exfalso
    have hvx : v.x = 0 := by nlinarith [sq_nonneg v.x, sq_nonneg v.y, sq_nonneg v.z]
    have hvy : v.y = 0 := by nlinarith [sq_nonneg v.x, sq_nonneg v.y, sq_nonneg v.z]
    have hvz : v.z = 0 := by nlinarith [sq_nonneg v.x, sq_nonneg v.y, sq_nonneg v.z]
    have e0 : ti 0 0 * (op.x - 0) + ti 1 0 * (op.y - 0) + ti 2 0 * (op.z - 0) +
        ti 3 0 * (op.w - 1) = 0 := by
      rw [hv] at hvx
      simpa [to_tuple, matMul, Finset.sum_range_succ, transposeM, to_matrix,
        Tuple.sub, Tuple.point] using hvx
    have e1 : ti 0 1 * (op.x - 0) + ti 1 1 * (op.y - 0) + ti 2 1 * (op.z - 0) +
        ti 3 1 * (op.w - 1) = 0 := by
      rw [hv] at hvy
      simpa [to_tuple, matMul, Finset.sum_range_succ, transposeM, to_matrix,
        Tuple.sub, Tuple.point] using hvy
    have e2 : ti 0 2 * (op.x - 0) + ti 1 2 * (op.y - 0) + ti 2 2 * (op.z - 0) +
        ti 3 2 * (op.w - 1) = 0 := by
      rw [hv] at hvz
      simpa [to_tuple, matMul, Finset.sum_range_succ, transposeM, to_matrix,
        Tuple.sub, Tuple.point] using hvz
    have hAB : ∀ k i, k < 3 → i < 3 →
        ti k 0 * s.transformation 0 i + ti k 1 * s.transformation 1 i +
          ti k 2 * s.transformation 2 i = if k = i then 1 else 0 := by
      intro k i hk hi
      have h := mulEntry ti s.transformation hTiM k i (by omega) (by omega)
      have hm3i : s.transformation 3 i = 0 := by
        interval_cases i
        · exact hm30
        · exact hm31
        · exact hm32
      rw [hm3i, mul_zero, add_zero] at h
      exact h
    have h00 := hAB 0 0 (by omega) (by omega)
    have h10 := hAB 1 0 (by omega) (by omega)
    have h20 := hAB 2 0 (by omega) (by omega)
    have h01 := hAB 0 1 (by omega) (by omega)
    have h11 := hAB 1 1 (by omega) (by omega)
    have h21 := hAB 2 1 (by omega) (by omega)
    have h02 := hAB 0 2 (by omega) (by omega)
    have h12 := hAB 1 2 (by omega) (by omega)
    have h22 := hAB 2 2 (by omega) (by omega)
    norm_num at h00 h10 h20 h01 h11 h21 h02 h12 h22
    have hx0 : op.x = 0 := by
      linear_combination s.transformation 0 0 * e0 +
        s.transformation 1 0 * e1 + s.transformation 2 0 * e2 -
        op.x * h00 - op.y * h10 - op.z * h20 -
        ((op.w - 1) * s.transformation 0 0) * hti30 -
        ((op.w - 1) * s.transformation 1 0) * hti31 -
        ((op.w - 1) * s.transformation 2 0) * hti32
    have hx1 : op.y = 0 := by
      linear_combination s.transformation 0 1 * e0 +
        s.transformation 1 1 * e1 + s.transformation 2 1 * e2 -
        op.x * h01 - op.y * h11 - op.z * h21 -
        ((op.w - 1) * s.transformation 0 1) * hti30 -
        ((op.w - 1) * s.transformation 1 1) * hti31 -
        ((op.w - 1) * s.transformation 2 1) * hti32
    have hx2 : op.z = 0 := by
      linear_combination s.transformation 0 2 * e0 +
        s.transformation 1 2 * e1 + s.transformation 2 2 * e2 -
        op.x * h02 - op.y * h12 - op.z * h22 -
        ((op.w - 1) * s.transformation 0 2) * hti30 -
        ((op.w - 1) * s.transformation 1 2) * hti31 -
        ((op.w - 1) * s.transformation 2 2) * hti32
    rw [hx0, hx1, hx2] at hsurf
    norm_num at hsurf

theorem mat4_oob (a00 a01 a02 a03 a10 a11 a12 a13 a20 a21 a22 a23
    a30 a31 a32 a33 : ℝ) (i j : Nat) (h : 4 ≤ i ∨ 4 ≤ j) :
    mat4 a00 a01 a02 a03 a10 a11 a12 a13 a20 a21 a22 a23
      a30 a31 a32 a33 i j = 0 := by
  rw [mat4]
  rcases h with h | h
  · rw [if_neg (by omega), if_neg (by omega), if_neg (by omega),
      if_neg (by omega)]
  · have hj : j ≠ 0 ∧ j ≠ 1 ∧ j ≠ 2 ∧ j ≠ 3 := by omega
    by_cases h0 : i = 0
    · rw [if_pos h0, if_neg hj.1, if_neg hj.2.1, if_neg hj.2.2.1,
        if_neg hj.2.2.2]
    · rw [if_neg h0]
      by_cases h1 : i = 1
      · rw [if_pos h1, if_neg hj.1, if_neg hj.2.1, if_neg hj.2.2.1,
          if_neg hj.2.2.2]
      · rw [if_neg h1]
        by_cases h2 : i = 2
        · rw [if_pos h2, if_neg hj.1, if_neg hj.2.1, if_neg hj.2.2.1,
            if_neg hj.2.2.2]
        · rw [if_neg h2]
          by_cases h3 : i = 3
          · rw [if_pos h3, if_neg hj.1, if_neg hj.2.1, if_neg hj.2.2.1,
              if_neg hj.2.2.2]
          · rw [if_neg h3]

/-- The invertible but non-affine transform swapping the x and w
coordinates, used to refute C9 as stated. -/
def swapM : Mat := mat4 0 0 0 1 0 1 0 0 0 0 1 0 1 0 0 0

/-- Sphere carrying the swap transform. -/
def swapSphere : Sphere :=
  { Sphere.new_unit_sphere with transformation := swapM }

theorem det_swapM : (toM4 swapM).det = -1 := by
  have h1 : det4 swapM = Res.ok (some (-1)) := by
    norm_num [det4, detSum4, cofactor4, minor4, det3, detSum3, cofactor3,
      minor3, submatrixM, subShift, det2, swapM, mat4]
  have h2 := det4_eq swapM
  rw [h1] at h2
  injection h2 with h3
  injection h3 with h4
  exact h4.symm

/-- The engine inverse of the swap transform is the swap transform itself. -/
theorem invert_swapM : invertM 4 swapM = Res.ok (some swapM) := by
  rw [invert4_of_det_ne swapM (by rw [det_swapM]; norm_num)]
  congr 2
  funext i j
  rw [det_swapM]
  by_cases hi : i < 4
  · by_cases hj : j < 4
    · interval_cases i <;> interval_cases j <;>
        norm_num [resVal, cofactor4, minor4, det3, detSum3, cofactor3, minor3,
          submatrixM, subShift, det2, swapM, mat4]
    · have hsub : submatrixM 4 4 3 3 swapM j i = none := by
        rw [submatrixM, if_pos]
        left
        omega
      rw [show resVal (cofactor4 swapM j i) = 0 from by
        rw [cofactor4, minor4, hsub]; rfl]
      rw [show swapM i j = 0 from mat4_oob 0 0 0 1 0 1 0 0 0 0 1 0 1 0 0 0 i j
        (Or.inr (by omega))]
      norm_num
  · have hsub : submatrixM 4 4 3 3 swapM j i = none := by
      rw [submatrixM, if_pos]
      right
      left
      omega
    rw [show resVal (cofactor4 swapM j i) = 0 from by
      rw [cofactor4, minor4, hsub]; rfl]
    rw [show swapM i j = 0 from mat4_oob 0 0 0 1 0 1 0 0 0 0 1 0 1 0 0 0 i j
      (Or.inl (by omega))]
    norm_num

/-- Counterexample to C9 as stated: the swap transform is invertible and the
point (1, 0, 0) lies on the surface of the transformed sphere (its
object-space image is at distance 1 from the origin), yet normal_at returns
the zero tuple, whose magnitude 0 is not within 1e-5 of 1 (in IEEE
arithmetic the same division 0/0 produces NaN, which also fails the
epsilon comparison). -/
theorem C9_counterexample :
    invertM 4 swapM = Res.ok (some swapM) ∧
    (Tuple.point 1 0 0).w = 1 ∧
    (to_tuple (matMul 4 swapM (to_matrix (Tuple.point 1 0 0)))).x ^ 2 +
      (to_tuple (matMul 4 swapM (to_matrix (Tuple.point 1 0 0)))).y ^ 2 +
      (to_tuple (matMul 4 swapM (to_matrix (Tuple.point 1 0 0)))).z ^ 2 = 1 ∧
    normal_at swapSphere (Tuple.point 1 0 0) = Res.ok ⟨0, 0, 0, 0⟩ ∧
    Tuple.magnitude ⟨0, 0, 0, 0⟩ = 0 ∧
    ¬ |Tuple.magnitude (⟨0, 0, 0, 0⟩ : Tuple) - 1| < 1e-5 := by
  refine ⟨invert_swapM, rfl, ?_, ?_, ?_, ?_⟩
  · norm_num [to_tuple, matMul, Finset.sum_range_succ, to_matrix, swapM, mat4,
      Tuple.point]
  · rw [normal_at, show swapSphere.transformation = swapM from rfl,
      invert_swapM]
    norm_num [to_tuple, matMul, Finset.sum_range_succ, to_matrix, transposeM,
      swapM, mat4, Tuple.point, Tuple.sub, Tuple.normalize, Tuple.magnitude,
      Tuple.mk.injEq]
  · norm_num [Tuple.magnitude]
  · norm_num [Tuple.magnitude]

/-- Witness for C9 at the unit sphere and the point (1, 0, 0). -/
theorem C9_witness :
    ∃ n, normal_at Sphere.new_unit_sphere (Tuple.point 1 0 0) = Res.ok n ∧
      n.w = 0 ∧ n.magnitude = 1 := by
  apply C9_normal_unit Sphere.new_unit_sphere (Tuple.point 1 0 0)
    (identityM 4) invert_identity4
  · refine ⟨?_, ?_, ?_, ?_⟩ <;> norm_num [Sphere.new_unit_sphere, identityM]
  · rfl
  · rw [to_tuple_matMul_identity]
    norm_num [Tuple.point]

/-- Witness for C4 on the ray from (0, 0, -5) toward (0, 0, 1) and the unit
sphere. -/
theorem C4_witness :
    0 < quadA (Ray.transform ⟨Tuple.point 0 0 (-5), Tuple.vector 0 0 1⟩
      (identityM 4)) ∧
    Ray.intersects ⟨Tuple.point 0 0 (-5), Tuple.vector 0 0 1⟩
      Sphere.new_unit_sphere =
      Res.ok [⟨4, Sphere.new_unit_sphere⟩, ⟨6, Sphere.new_unit_sphere⟩] := by
  have h := C4_intersects.1 ⟨Tuple.point 0 0 (-5), Tuple.vector 0 0 1⟩
    Sphere.new_unit_sphere (identityM 4) invert_identity4
    (by
      intro hf
      have hz := congrArg Tuple.z hf
      norm_num [Tuple.vector] at hz)
  exact ⟨h.1, C4_intersects.2.1⟩

/-
Claim C5: color_at on the default world.
-/

theorem transpose_identity : transposeM (identityM 4) = identityM 4 := by
  funext i j
  rw [transposeM, identityM, identityM]
  by_cases hij : i = j
  · subst hij
    rfl
  · rw [if_neg (fun hf => hij hf.1.symm), if_neg (fun hf => hij hf.1)]

/-- Intersections of the standard test ray with any sphere carrying the
identity transform: t = 4 and t = 6. -/
theorem intersects_unitlike (s : Sphere) (h : s.transformation = identityM 4) :
    Ray.intersects ⟨Tuple.point 0 0 (-5), Tuple.vector 0 0 1⟩ s =
      Res.ok [⟨4, s⟩, ⟨6, s⟩] := by
  have hinv : invertM 4 s.transformation = Res.ok (some (identityM 4)) := by
    rw [h]
    exact invert_identity4
  rw [intersects_eq _ _ _ hinv, transform_identity]
  norm_num [quadDisc, quadA, quadB, quadC, dot, Tuple.sub, Tuple.point,
    Tuple.vector, Intersection.mk.injEq]
  rw [sqrt_four]
  norm_num

/-- The fluent scale builder applied to the identity is the scaling matrix. -/
theorem scaleFluent_identity (x y z : ℝ) :
    scaleFluent (identityM 4) x y z = scalingM x y z := by
  funext i j
  rw [scaleFluent]
  by_cases hi : i < 4
  · by_cases hj : j < 4
    · interval_cases i <;> interval_cases j <;>
        norm_num [matMul, Finset.sum_range_succ, scalingM, mat4, identityM]
    · have hid : ∀ k, identityM 4 k j = 0 := fun k => by
        rw [identityM, if_neg]
        intro hf
        omega
      rw [show scalingM x y z i j = 0 from by
        rw [scalingM]; exact mat4_oob x 0 0 0 0 y 0 0 0 0 z 0 0 0 0 1 i j
          (Or.inr (by omega))]
      norm_num [matMul, Finset.sum_range_succ, hid]
  · have hscal : ∀ k, scalingM x y z i k = 0 := fun k => by
      rw [scalingM]
      exact mat4_oob x 0 0 0 0 y 0 0 0 0 z 0 0 0 0 1 i k (Or.inl (by omega))
    rw [show scalingM x y z i j = 0 from by
      rw [scalingM]; exact mat4_oob x 0 0 0 0 y 0 0 0 0 z 0 0 0 0 1 i j
        (Or.inl (by omega))]
    norm_num [matMul, Finset.sum_range_succ, hscal]

theorem det_scaling_half : (toM4 (scalingM 0.5 0.5 0.5)).det = 0.125 := by
  have h1 : det4 (scalingM 0.5 0.5 0.5) = Res.ok (some 0.125) := by
    norm_num [det4, detSum4, cofactor4, minor4, det3, detSum3, cofactor3,
      minor3, submatrixM, subShift, det2, scalingM, mat4]
  have h2 := det4_eq (scalingM 0.5 0.5 0.5)
  rw [h1] at h2
  injection h2 with h3
  injection h3 with h4
  exact h4.symm

/-- The engine inverse of scaling by one half is scaling by two. -/
theorem invert_scaling_half :
    invertM 4 (scalingM 0.5 0.5 0.5) = Res.ok (some (scalingM 2 2 2)) := by
  rw [invert4_of_det_ne (scalingM 0.5 0.5 0.5)
    (by rw [det_scaling_half]; norm_num)]
  congr 2
  funext i j
  rw [det_scaling_half]
  by_cases hi : i < 4
  · by_cases hj : j < 4
    · interval_cases i <;> interval_cases j <;>
        norm_num [resVal, cofactor4, minor4, det3, detSum3, cofactor3, minor3,
          submatrixM, subShift, det2, scalingM, mat4]
    · have hsub : submatrixM 4 4 3 3 (scalingM 0.5 0.5 0.5) j i = none := by
        rw [submatrixM, if_pos]
        left
        omega
      rw [show resVal (cofactor4 (scalingM 0.5 0.5 0.5) j i) = 0 from by
        rw [cofactor4, minor4, hsub]; rfl]
      rw [show scalingM 2 2 2 i j = 0 from by
        rw [scalingM]; exact mat4_oob 2 0 0 0 0 2 0 0 0 0 2 0 0 0 0 1 i j
          (Or.inr (by omega))]
      norm_num
  · have hsub : submatrixM 4 4 3 3 (scalingM 0.5 0.5 0.5) j i = none := by
      rw [submatrixM, if_pos]
      right
      left
      omega
    rw [show resVal (cofactor4 (scalingM 0.5 0.5 0.5) j i) = 0 from by
      rw [cofactor4, minor4, hsub]; rfl]
    rw [show scalingM 2 2 2 i j = 0 from by
      rw [scalingM]; exact mat4_oob 2 0 0 0 0 2 0 0 0 0 2 0 0 0 0 1 i j
        (Or.inl (by omega))]
    norm_num

theorem sqrt_sixteen : Real.sqrt 16 = 4 := by
  rw [show (16 : ℝ) = 4 ^ 2 by norm_num,
    Real.sqrt_sq (by norm_num : (0 : ℝ) ≤ 4)]

/-- Intersections of the standard test ray with any sphere scaled by 0.5:
t = 4.5 and t = 5.5. -/
theorem intersects_halfscaled (s : Sphere)
    (h : s.transformation = scaleFluent (identityM 4) 0.5 0.5 0.5) :
    Ray.intersects ⟨Tuple.point 0 0 (-5), Tuple.vector 0 0 1⟩ s =
      Res.ok [⟨4.5, s⟩, ⟨5.5, s⟩] := by
  have hinv : invertM 4 s.transformation = Res.ok (some (scalingM 2 2 2)) := by
    rw [h, scaleFluent_identity]
    exact invert_scaling_half
  rw [intersects_eq _ _ _ hinv]
  have htr : Ray.transform ⟨Tuple.point 0 0 (-5), Tuple.vector 0 0 1⟩
      (scalingM 2 2 2) = ⟨⟨0, 0, -10, 1⟩, ⟨0, 0, 2, 0⟩⟩ := by
    norm_num [Ray.transform, to_tuple, matMul, Finset.sum_range_succ,
      to_matrix, scalingM, mat4, Tuple.point, Tuple.vector, Tuple.mk.injEq,
      Ray.mk.injEq]
  rw [htr]
  norm_num [quadDisc, quadA, quadB, quadC, dot, Tuple.sub, Tuple.point,
    Intersection.mk.injEq]
  rw [sqrt_sixteen]
  norm_num

/-- All intersections of the test ray with the default world, sorted
ascending: 4, 4.5, 5.5, 6. -/
theorem dw_intersections :
    Ray.intersections_in_world ⟨Tuple.point 0 0 (-5), Tuple.vector 0 0 1⟩
      World.default_world =
    Res.ok [⟨4, dwS1⟩, ⟨4.5, dwS2⟩, ⟨5.5, dwS2⟩, ⟨6, dwS1⟩] := by
  have h1 := intersects_unitlike dwS1 rfl
  have h2 := intersects_halfscaled dwS2 rfl
  rw [Ray.intersections_in_world]
  rw [show World.default_world.objects = [dwS1, dwS2] from rfl]
  rw [List.foldl_cons, List.foldl_cons, List.foldl_nil]
  simp only [h1, h2]
  norm_num [List.insertionSort, List.orderedInsert]

/-- The hit in the default world is the intersection at t = 4 with the
outer sphere. -/
theorem dw_hit :
    hit [⟨4, dwS1⟩, ⟨4.5, dwS2⟩, ⟨5.5, dwS2⟩, ⟨6, dwS1⟩] = some ⟨4, dwS1⟩ := by
  norm_num [hit, hitStep]

/-- The world normal of the outer sphere at the hit point (0, 0, -1). -/
theorem dw_normal :
    normal_at dwS1 (Tuple.point 0 0 (-1)) = Res.ok (Tuple.vector 0 0 (-1)) := by
  rw [normal_at, show dwS1.transformation = identityM 4 from rfl,
    invert_identity4]
  simp only [to_tuple_matMul_identity, transpose_identity]
  norm_num [Tuple.sub, Tuple.point, Tuple.mk.injEq]
  rw [Tuple.normalize, Tuple.magnitude]
  norm_num [Tuple.vector, Tuple.mk.injEq]

/-- The prepared computation for the default-world hit. -/
theorem dw_prepare :
    Ray.prepare_computation ⟨Tuple.point 0 0 (-5), Tuple.vector 0 0 1⟩
      ⟨4, dwS1⟩ =
    Res.ok ⟨4, dwS1, Tuple.point 0 0 (-1), Tuple.vector 0 0 (-1),
      Tuple.vector 0 0 (-1), false⟩ := by
  have hpos : Ray.position ⟨Tuple.point 0 0 (-5), Tuple.vector 0 0 1⟩ 4 =
      Tuple.point 0 0 (-1) := by
    norm_num [Ray.position, Tuple.add, Tuple.smul, Tuple.point, Tuple.vector,
      Tuple.mk.injEq]
  simp only [Ray.prepare_computation, hpos, dw_normal]
  rw [if_neg (by norm_num [dot, Tuple.vector, Tuple.neg])]
  norm_num [Computation.mk.injEq, Tuple.neg, Tuple.vector, Tuple.mk.injEq]

/-- color_at on the default world reduces to lighting with the first light
and the hit data. -/
theorem dw_colorAt :
    World.color_at World.default_world
      ⟨Tuple.point 0 0 (-5), Tuple.vector 0 0 1⟩ =
    Res.ok (lighting dwM1 dwLight (Tuple.point 0 0 (-1))
      (Tuple.vector 0 0 (-1)) (Tuple.vector 0 0 (-1))) := by
  rw [World.color_at, dw_intersections]
  simp only [dw_hit, dw_prepare]
  rw [World.shade_hit, show World.default_world.lights = [dwLight] from rfl]
  rfl

theorem sqrt281_pos : (0 : ℝ) < Real.sqrt 281 :=
  Real.sqrt_pos.mpr (by norm_num)

theorem sqrt281_sq : Real.sqrt 281 ^ 2 = 281 :=
  Real.sq_sqrt (by norm_num)

/-- Closed form of the default-world lighting call: ambient plus diffuse
plus the vanishing specular term, with q = 9 / sqrt 281. -/
theorem lighting_dw_eq :
    lighting dwM1 dwLight (Tuple.point 0 0 (-1)) (Tuple.vector 0 0 (-1))
      (Tuple.vector 0 0 (-1)) =
    ⟨0.08 + 0.56 * (9 / Real.sqrt 281) +
        0.2 * ((9 / Real.sqrt 281) ^ (200 : ℝ)),
     0.1 + 0.7 * (9 / Real.sqrt 281) +
        0.2 * ((9 / Real.sqrt 281) ^ (200 : ℝ)),
     0.06 + 0.42 * (9 / Real.sqrt 281) +
        0.2 * ((9 / Real.sqrt 281) ^ (200 : ℝ))⟩ := by
  have hsub : (dwLight.position).sub (Tuple.point 0 0 (-1)) =
      ⟨-10, 10, -9, 0⟩ := by
    norm_num [dwLight, PointLight.new, Tuple.sub, Tuple.point, Tuple.mk.injEq]
  have hmag : Tuple.magnitude ⟨-10, 10, -9, 0⟩ = Real.sqrt 281 := by
    rw [Tuple.magnitude]
    norm_num
  have hnorm : (⟨-10, 10, -9, 0⟩ : Tuple).normalize =
      ⟨-10 / Real.sqrt 281, 10 / Real.sqrt 281, -9 / Real.sqrt 281, 0⟩ := by
    rw [Tuple.normalize, hmag]
  have hldn : dot ⟨-10 / Real.sqrt 281, 10 / Real.sqrt 281,
      -9 / Real.sqrt 281, 0⟩ (Tuple.vector 0 0 (-1)) = 9 / Real.sqrt 281 := by
    norm_num [dot, Tuple.vector]
    ring
  have hqpos : (0 : ℝ) < 9 / Real.sqrt 281 := by
    apply div_pos (by norm_num) sqrt281_pos
  have hrefl : reflect (Tuple.neg ⟨-10 / Real.sqrt 281, 10 / Real.sqrt 281,
      -9 / Real.sqrt 281, 0⟩) (Tuple.vector 0 0 (-1)) =
      ⟨10 / Real.sqrt 281, -10 / Real.sqrt 281, -9 / Real.sqrt 281, 0⟩ := by
    norm_num [reflect, Tuple.neg, Tuple.sub, Tuple.smul, dot, Tuple.vector,
      Tuple.mk.injEq]
    refine ⟨?_, ?_, ?_⟩ <;> first | trivial | ring
  have hmag2 : Tuple.magnitude ⟨10 / Real.sqrt 281, -10 / Real.sqrt 281,
      -9 / Real.sqrt 281, 0⟩ = 1 := by
    rw [Tuple.magnitude]
    have harg : (10 / Real.sqrt 281) ^ 2 + (-10 / Real.sqrt 281) ^ 2 +
        (-9 / Real.sqrt 281) ^ 2 = 1 := by
      simp only [div_pow, sqrt281_sq]
      norm_num
    rw [show ((10 / Real.sqrt 281) ^ 2 + (-10 / Real.sqrt 281) ^ 2 +
        (-9 / Real.sqrt 281) ^ 2 : ℝ) = 1 from harg, Real.sqrt_one]
  have hnorm2 : (⟨10 / Real.sqrt 281, -10 / Real.sqrt 281,
      -9 / Real.sqrt 281, 0⟩ : Tuple).normalize =
      ⟨10 / Real.sqrt 281, -10 / Real.sqrt 281, -9 / Real.sqrt 281, 0⟩ := by
    rw [Tuple.normalize, hmag2]
    norm_num
  have hrde : dot ⟨10 / Real.sqrt 281, -10 / Real.sqrt 281,
      -9 / Real.sqrt 281, 0⟩ (Tuple.vector 0 0 (-1)) = 9 / Real.sqrt 281 := by
    norm_num [dot, Tuple.vector]
    ring
  rw [lighting]
  simp only [hsub, hnorm, hldn, hrefl, hnorm2, hrde, if_pos hqpos]
  norm_num [dwM1, dwLight, PointLight.new, Color.hadamard, Color.smul,
    Color.add, Color.color, Color.mk.injEq]

theorem sqrt281_lo : (16.76305 : ℝ) < Real.sqrt 281 := by
  rw [Real.lt_sqrt (by norm_num)]
  norm_num

theorem sqrt281_hi : Real.sqrt 281 < 16.76306 := by
  rw [Real.sqrt_lt' (by norm_num)]
  norm_num

theorem q281_lo : (9 : ℝ) / 16.76306 < 9 / Real.sqrt 281 := by
  apply div_lt_div_of_pos_left (by norm_num) sqrt281_pos sqrt281_hi

theorem q281_hi : (9 : ℝ) / Real.sqrt 281 < 9 / 16.76305 := by
  apply div_lt_div_of_pos_left (by norm_num)
    (by norm_num : (0 : ℝ) < 16.76305) sqrt281_lo

theorem spec281_nonneg : (0 : ℝ) ≤ (9 / Real.sqrt 281) ^ (200 : ℝ) :=
  Real.rpow_natCast (9 / Real.sqrt 281) 200 ▸
    pow_nonneg (le_of_lt (div_pos (by norm_num) sqrt281_pos)) 200

theorem spec281_small : (9 / Real.sqrt 281) ^ (200 : ℝ) ≤ 1e-10 := by
  rw [show (200 : ℝ) = ((200 : ℕ) : ℝ) by norm_num,
    Real.rpow_natCast (9 / Real.sqrt 281) 200]
  have hq2 : (9 / Real.sqrt 281) ^ 2 = 81 / 281 := by
    rw [div_pow, sqrt281_sq]
    norm_num
  calc (9 / Real.sqrt 281) ^ 200 = ((9 / Real.sqrt 281) ^ 2) ^ 100 := by
        rw [← pow_mul]
    _ = (81 / 281 : ℝ) ^ 100 := by rw [hq2]
    _ ≤ (1 / 3 : ℝ) ^ 100 := by
        apply pow_le_pow_left (by norm_num) (by norm_num)
    _ ≤ 1e-10 := by norm_num

/-- C5: color_at of the default world on the ray from (0, 0, -5) toward
(0, 0, 1) shades the hit through lighting with the first light and returns
approximately Color(0.38066, 0.47583, 0.2855), each channel within 1e-5. -/
theorem C5_default_world_color :
    World.color_at World.default_world
        ⟨Tuple.point 0 0 (-5), Tuple.vector 0 0 1⟩ =
      Res.ok (lighting dwM1 dwLight (Tuple.point 0 0 (-1))
        (Tuple.vector 0 0 (-1)) (Tuple.vector 0 0 (-1))) ∧
    ∃ c, World.color_at World.default_world
        ⟨Tuple.point 0 0 (-5), Tuple.vector 0 0 1⟩ = Res.ok c ∧
      |c.red - 0.38066| < 1e-5 ∧ |c.green - 0.47583| < 1e-5 ∧
      |c.blue - 0.2855| < 1e-5 := by
  refine ⟨dw_colorAt, _, dw_colorAt, ?_, ?_, ?_⟩ <;>
    rw [lighting_dw_eq] <;> rw [abs_lt] <;>
    constructor <;>
    nlinarith [q281_lo, q281_hi, spec281_nonneg, spec281_small]

/-- Witness for C3 at the t-list [5, 7, -3, 2]. -/
theorem C3_witness :
    hit [⟨5, Sphere.new_unit_sphere⟩, ⟨7, Sphere.new_unit_sphere⟩,
      ⟨-3, Sphere.new_unit_sphere⟩, ⟨2, Sphere.new_unit_sphere⟩] ≠ none := by
  intro hf
  have h := (C3_hit [⟨5, Sphere.new_unit_sphere⟩, ⟨7, Sphere.new_unit_sphere⟩,
    ⟨-3, Sphere.new_unit_sphere⟩, ⟨2, Sphere.new_unit_sphere⟩]).1.mp hf
    ⟨5, Sphere.new_unit_sphere⟩ (by simp)
  norm_num at h

/-- C10: on a world whose lights collection is empty, shade_hit panics on
the lights[0] access for every computation; consequently color_at panics
whenever the ray hits one of the world's objects, and returns normally
(with black) exactly when the hit is none. -/
theorem C10_no_lights_panics (w : World) (r : Ray) (hl : w.lights = []) :
    (∀ c : Computation, w.shade_hit c = Res.panics) ∧
    (∀ is, r.intersections_in_world w = Res.ok is →
      ((∃ i, hit is = some i) → w.color_at r = Res.panics) ∧
      (hit is = none → w.color_at r = Res.ok (Color.color 0 0 0))) := by
  have hsh : ∀ c : Computation, w.shade_hit c = Res.panics := by
    intro c
    rw [World.shade_hit, hl]
  refine ⟨hsh, ?_⟩
  intro is his
  constructor
  · rintro ⟨i, hi⟩
    rw [World.color_at]
    simp only [his, hi, hsh]
    cases hpc : r.prepare_computation i <;> simp only [hpc]
  · intro hn
    rw [World.color_at]
    simp only [his, hn]

/-- Witness for C10 on the light-less single-sphere world: shade_hit panics
on the standard computation, and color_at panics on the hitting test ray. -/
theorem C10_witness :
    World.shade_hit ⟨[Sphere.new_unit_sphere], []⟩
      ⟨4, Sphere.new_unit_sphere, Tuple.point 0 0 (-1), Tuple.vector 0 0 (-1),
       Tuple.vector 0 0 (-1), false⟩ = Res.panics ∧
    World.color_at ⟨[Sphere.new_unit_sphere], []⟩
      ⟨Tuple.point 0 0 (-5), Tuple.vector 0 0 1⟩ = Res.panics := by
  have h := C10_no_lights_panics ⟨[Sphere.new_unit_sphere], []⟩
    ⟨Tuple.point 0 0 (-5), Tuple.vector 0 0 1⟩ rfl
  refine ⟨h.1 _, ?_⟩
  have his : Ray.intersections_in_world
      ⟨Tuple.point 0 0 (-5), Tuple.vector 0 0 1⟩
      ⟨[Sphere.new_unit_sphere], []⟩ =
      Res.ok [⟨4, Sphere.new_unit_sphere⟩, ⟨6, Sphere.new_unit_sphere⟩] := by
    rw [Ray.intersections_in_world]
    rw [show (World.mk [Sphere.new_unit_sphere] []).objects =
      [Sphere.new_unit_sphere] from rfl]
    rw [List.foldl_cons, List.foldl_nil]
    simp only [intersects_ex1]
    norm_num [List.insertionSort, List.orderedInsert]
  refine (h.2 _ his).1 ⟨⟨4, Sphere.new_unit_sphere⟩, ?_⟩
  norm_num [hit, hitStep]

/-- Camera.new on a 2 by 2 canvas with field of view 0: zero half extents
and pixel size, identity transform. -/
theorem camNew22 : Camera.new 2 2 0 = ⟨2, 2, 0, 0, 0, 0, identityM 4⟩ := by
  rw [Camera.new]
  norm_num [Real.tan_zero, Camera.mk.injEq]

/-- The ray for pixel (0, 0) of the degenerate 2 by 2 camera: origin at the
world origin, direction (0, 0, -1). -/
theorem rayPix00 : Camera.ray_for_pixel (Camera.new 2 2 0) 0 0 =
    Res.ok ⟨Tuple.point 0 0 0, ⟨0, 0, -1, 0⟩⟩ := by
  rw [camNew22, Camera.ray_for_pixel]
  simp only [invert_identity4, to_tuple_matMul_identity]
  norm_num [Tuple.sub, Tuple.point, Tuple.normalize, Tuple.magnitude,
    Real.sqrt_one, Ray.mk.injEq, Tuple.mk.injEq]

/-- color_at over the empty world is black for every ray: no objects, so no
intersections and no hit. -/
theorem colorAt_new (r : Ray) :
    World.color_at World.new r = Res.ok (Color.color 0 0 0) := rfl

/-- C1: the render loops run y over 0..vsize - 1 and x over 0..hsize - 1,
so on a 2 by 2 camera the full write trace is the single pixel (0, 0): the
pixels (1, 0), (0, 1) and (1, 1) of the output grid are never written,
against the claim that every pixel in [0, hsize) x [0, vsize) is. -/
theorem C1_render_skips_last :
    Camera.render (Camera.new 2 2 0) World.new =
      Res.ok [((0, 0), Color.color 0 0 0)] ∧
    ∀ c : Color, ((1, 1), c) ∉ [((0, 0), Color.color 0 0 0)] := by
  constructor
  · rw [Camera.render]
    rw [show (Camera.new 2 2 0).vsize - 1 = 1 from rfl,
        show (Camera.new 2 2 0).hsize - 1 = 1 from rfl,
        show List.range 1 = [0] from rfl]
    simp only [List.foldl_cons, List.foldl_nil]
    simp only [rayPix00, colorAt_new, List.nil_append]
  · intro c
    simp

end

end RayTracer
